import Mathlib

/-!
# Kernel signal masks and alignment constants of `core/unix/signal_private.h`

A shallow embedding of the `kernel_sigset_t` helpers
(`kernel_sigemptyset`, `kernel_sigfillset`, `kernel_sigaddset`,
`kernel_sigdelset`, `kernel_sigismember`), of the two conversion loops
(`copy_kernel_sigset_to_sigset`, `copy_sigset_to_kernel_sigset`), of the
`XSTATE_ALIGNMENT` constant and of the pending-signal lists.

Conventions of the embedding:

* a C `int` is an `Int` inside `[INT_MIN, INT_MAX]`, a `uint` is a `Nat`
  below `2 ^ 32`, an `unsigned long` is a `Nat` below `2 ^ _NSIG_BPW`;
* an operation whose C behaviour is undefined (signed overflow, a shift by a
  negative count or by at least the width of the word, an access outside the
  `sig` array) evaluates to `none`;
* the constants `_NSIG_WORDS`, `_NSIG_BPW` and `MAX_SIGNUM` are declared in
  `os_exports.h`, not in this header, and are parameters (`Config`);
* the portable `sigset_t` and its libc operations are parameters
  (`sigset_ops`);
* the header declares the nodes and the heads of the pending-signal lists
  (`sigpending_t`, `thread_sig_info_t`) but not the operations on them, which
  are in `signal.c`: `enqueue`, `dequeue_oldest` and `drain` follow the
  specification of the pending-signal queue and say so in their comments.
-/

namespace SignalPrivate

/-! ## Constants and C integers -/

/-- Build constants used by the header and declared elsewhere (`os_exports.h`):
the number of words of a kernel mask, the number of bits of one word
(`unsigned long`), and the largest signal number. -/
structure Config where
  _NSIG_WORDS : Nat
  _NSIG_BPW : Nat
  MAX_SIGNUM : Nat
deriving DecidableEq, Repr

/-- Smallest value of a C `int`. -/
def INT_MIN : Int := -(2 ^ 31)

/-- Largest value of a C `int`. -/
def INT_MAX : Int := 2 ^ 31 - 1

/-- The `int` subtraction `a - b`; signed overflow is undefined. -/
def int_sub (a b : Int) : Option Int :=
  if INT_MIN ≤ a - b ∧ a - b ≤ INT_MAX then some (a - b) else none

/-- The `int` addition `a + b`; signed overflow is undefined. -/
def int_add (a b : Int) : Option Int :=
  if INT_MIN ≤ a + b ∧ a + b ≤ INT_MAX then some (a + b) else none

/-- Conversion of an `int` value to `uint` (reduction modulo `2 ^ 32`). -/
def uint_of_int (x : Int) : Nat := (x % 2 ^ 32).toNat

/-- The shift `x << sh` of an `unsigned long` by an unsigned count: undefined when
the count reaches the width of the word, otherwise truncated to the word. -/
def ulong_shl (cfg : Config) (x sh : Nat) : Option Nat :=
  if sh < cfg._NSIG_BPW then some ((x <<< sh) % 2 ^ cfg._NSIG_BPW) else none

/-- The shift `x >> sh` of an `unsigned long` by an `int` count: undefined when
the count is negative or reaches the width of the word. -/
def ulong_shr (cfg : Config) (x : Nat) (sh : Int) : Option Nat :=
  if 0 ≤ sh ∧ sh < (cfg._NSIG_BPW : Int) then some (x >>> sh.toNat) else none

/-- The complement `~x` of an `unsigned long`. -/
def ulong_not (cfg : Config) (x : Nat) : Nat := 2 ^ cfg._NSIG_BPW - 1 - x % 2 ^ cfg._NSIG_BPW

/-- The macro `CAST_TO_bool(x)`, that is `!!(x)`. -/
def CAST_TO_bool (x : Nat) : Bool := x != 0

/-! ## `kernel_sigset_t` -/

/-- The type `kernel_sigset_t`: `struct { unsigned long sig[_NSIG_WORDS]; }`. -/
structure kernel_sigset_t where
  sig : List Nat
deriving DecidableEq, Repr

/-- A mask has the shape of its C type: `_NSIG_WORDS` words of `_NSIG_BPW` bits. -/
def kernel_sigset_t.wf (cfg : Config) (set : kernel_sigset_t) : Prop :=
  set.sig.length = cfg._NSIG_WORDS ∧ ∀ w ∈ set.sig, w < 2 ^ cfg._NSIG_BPW

instance (cfg : Config) (set : kernel_sigset_t) : Decidable (set.wf cfg) := by
  unfold kernel_sigset_t.wf; infer_instance

/-- The `unsigned long` whose bytes are `bs`, least significant byte first. -/
def ulong_of_bytes (bs : List Nat) : Nat :=
  bs.foldr (fun b acc => b + 256 * acc) 0

/-- The call `memset(set, c, sizeof(kernel_sigset_t))`: each byte of each of the
`_NSIG_WORDS` words becomes `(unsigned char)c`. -/
def memset_sigset (cfg : Config) (c : Int) : kernel_sigset_t :=
  ⟨List.replicate cfg._NSIG_WORDS
    (ulong_of_bytes (List.replicate (cfg._NSIG_BPW / 8) (c % 256).toNat))⟩

/-- The function `kernel_sigemptyset`: `memset(set, 0, sizeof(kernel_sigset_t))`. -/
def kernel_sigemptyset (cfg : Config) (_set : kernel_sigset_t) : kernel_sigset_t :=
  memset_sigset cfg 0

/-- The function `kernel_sigfillset`: `memset(set, -1, sizeof(kernel_sigset_t))`. -/
def kernel_sigfillset (cfg : Config) (_set : kernel_sigset_t) : kernel_sigset_t :=
  memset_sigset cfg (-1)

/-- The function `kernel_sigaddset`:
`uint sig = _sig - 1;`
`if (_NSIG_WORDS == 1) set->sig[0] |= 1UL << sig;`
`else set->sig[sig / _NSIG_BPW] |= 1UL << (sig % _NSIG_BPW);` -/
def kernel_sigaddset (cfg : Config) (set : kernel_sigset_t) (_sig : Int) :
    Option kernel_sigset_t := do
  let sig : Nat := uint_of_int (← int_sub _sig 1)
  if cfg._NSIG_WORDS = 1 then
    let bit ← ulong_shl cfg 1 sig
    let w ← set.sig[0]?
    pure ⟨set.sig.set 0 (w ||| bit)⟩
  else
    let bit ← ulong_shl cfg 1 (sig % cfg._NSIG_BPW)
    let w ← set.sig[sig / cfg._NSIG_BPW]?
    pure ⟨set.sig.set (sig / cfg._NSIG_BPW) (w ||| bit)⟩

/-- The function `kernel_sigdelset`:
`uint sig = _sig - 1;`
`if (_NSIG_WORDS == 1) set->sig[0] &= ~(1UL << sig);`
`else set->sig[sig / _NSIG_BPW] &= ~(1UL << (sig % _NSIG_BPW));` -/
def kernel_sigdelset (cfg : Config) (set : kernel_sigset_t) (_sig : Int) :
    Option kernel_sigset_t := do
  let sig : Nat := uint_of_int (← int_sub _sig 1)
  if cfg._NSIG_WORDS = 1 then
    let bit ← ulong_shl cfg 1 sig
    let w ← set.sig[0]?
    pure ⟨set.sig.set 0 (w &&& ulong_not cfg bit)⟩
  else
    let bit ← ulong_shl cfg 1 (sig % cfg._NSIG_BPW)
    let w ← set.sig[sig / cfg._NSIG_BPW]?
    pure ⟨set.sig.set (sig / cfg._NSIG_BPW) (w &&& ulong_not cfg bit)⟩

/-- The read `set->sig[i]` with an `int` index. -/
def kernel_sigset_t.word (set : kernel_sigset_t) (i : Int) : Option Nat :=
  if 0 ≤ i then set.sig[i.toNat]? else none

/-- The function `kernel_sigismember`:
`int sig = _sig - 1;`
`if (_NSIG_WORDS == 1) return CAST_TO_bool(1 & (set->sig[0] >> sig));`
`else return CAST_TO_bool(1 & (set->sig[sig / _NSIG_BPW] >> (sig % _NSIG_BPW)));`
The division and remainder are those of C (truncation towards zero). -/
def kernel_sigismember (cfg : Config) (set : kernel_sigset_t) (_sig : Int) :
    Option Bool := do
  let sig ← int_sub _sig 1
  if cfg._NSIG_WORDS = 1 then
    let w ← set.word 0
    let sh ← ulong_shr cfg w sig
    pure (CAST_TO_bool (1 &&& sh))
  else
    let w ← set.word (Int.tdiv sig cfg._NSIG_BPW)
    let sh ← ulong_shr cfg w (Int.tmod sig cfg._NSIG_BPW)
    pure (CAST_TO_bool (1 &&& sh))

/-! ## The portable `sigset_t` -/

/-- The libc operations on the portable `sigset_t` used by the header. Their
`int` status results are not used by the code, except for the truth value of
`sigismember`. -/
structure sigset_ops (σ : Type) where
  sigemptyset : σ → σ
  sigaddset : σ → Int → σ
  sigismember : σ → Int → Int

/-- The C test `if (sigismember(uset, sig))`. -/
def sigset_ops.member {σ : Type} (ops : sigset_ops σ) (uset : σ) (sig : Int) : Bool :=
  ops.sigismember uset sig != 0

/-- The loop `for (sig = ...; sig <= MAX_SIGNUM; sig++)` of
`copy_kernel_sigset_to_sigset`, with `todo` iterations left:
`if (kernel_sigismember(kset, sig)) sigaddset(uset, sig);` -/
def copy_kernel_sigset_to_sigset_loop {σ : Type} (cfg : Config) (ops : sigset_ops σ)
    (kset : kernel_sigset_t) : Nat → Int → σ → Option σ
  | 0, _, uset => some uset
  | todo + 1, sig, uset => do
    let b ← kernel_sigismember cfg kset sig
    let next ← int_add sig 1
    copy_kernel_sigset_to_sigset_loop cfg ops kset todo next
      (if b then ops.sigaddset uset sig else uset)

/-- The function `copy_kernel_sigset_to_sigset`: `sigemptyset(uset)`, then the loop over
`sig = 1 .. MAX_SIGNUM`. The status `rc` of `sigemptyset` is only read by an
`ASSERT` of `DEBUG` builds and is not part of the embedding. -/
def copy_kernel_sigset_to_sigset {σ : Type} (cfg : Config) (ops : sigset_ops σ)
    (kset : kernel_sigset_t) (uset : σ) : Option σ :=
  copy_kernel_sigset_to_sigset_loop cfg ops kset cfg.MAX_SIGNUM 1 (ops.sigemptyset uset)

/-- The loop `for (sig = ...; sig <= MAX_SIGNUM; sig++)` of
`copy_sigset_to_kernel_sigset`, with `todo` iterations left:
`if (sigismember(uset, sig)) kernel_sigaddset(kset, sig);` -/
def copy_sigset_to_kernel_sigset_loop {σ : Type} (cfg : Config) (ops : sigset_ops σ)
    (uset : σ) : Nat → Int → kernel_sigset_t → Option kernel_sigset_t
  | 0, _, kset => some kset
  | todo + 1, sig, kset => do
    let kset1 ← if ops.member uset sig then kernel_sigaddset cfg kset sig else some kset
    let next ← int_add sig 1
    copy_sigset_to_kernel_sigset_loop cfg ops uset todo next kset1

/-- The function `copy_sigset_to_kernel_sigset`: `kernel_sigemptyset(kset)`, then the loop over
`sig = 1 .. MAX_SIGNUM`. -/
def copy_sigset_to_kernel_sigset {σ : Type} (cfg : Config) (ops : sigset_ops σ)
    (uset : σ) (kset : kernel_sigset_t) : Option kernel_sigset_t :=
  copy_sigset_to_kernel_sigset_loop cfg ops uset cfg.MAX_SIGNUM 1 (kernel_sigemptyset cfg kset)

/-- The portable operations behave as an ideal set for the signal numbers of
`dom`: the emptied set has no member in `dom`, and adding a signal `m` of
`1 .. MAX_SIGNUM` makes `m` a member and changes no other membership in `dom`. -/
def sigset_ops.ideal_on {σ : Type} (ops : sigset_ops σ) (cfg : Config) (dom : Int → Prop) :
    Prop :=
  (∀ (u : σ) (n : Int), dom n → ops.member (ops.sigemptyset u) n = false) ∧
  (∀ (u : σ) (m n : Int), 1 ≤ m → m ≤ (cfg.MAX_SIGNUM : Int) → dom n →
    ops.member (ops.sigaddset u m) n = (decide (n = m) || ops.member u n))

/-- The portable operations behave as an ideal set on `1 .. MAX_SIGNUM`. -/
def sigset_ops.ideal {σ : Type} (ops : sigset_ops σ) (cfg : Config) : Prop :=
  ops.ideal_on cfg (fun n => 1 ≤ n ∧ n ≤ (cfg.MAX_SIGNUM : Int))

/-- The portable operations behave as an ideal set on every `int`. -/
def sigset_ops.ideal_everywhere {σ : Type} (ops : sigset_ops σ) (cfg : Config) : Prop :=
  ops.ideal_on cfg (fun _ => True)

/-- The constants fit the conversion loops: every signal of `1 .. MAX_SIGNUM` has
a bit in the kernel mask, and the `int` loop counter can reach
`MAX_SIGNUM + 1`. -/
def Config.loops_in_range (cfg : Config) : Prop :=
  cfg.MAX_SIGNUM ≤ cfg._NSIG_WORDS * cfg._NSIG_BPW ∧ (cfg.MAX_SIGNUM : Int) < INT_MAX

instance (cfg : Config) : Decidable cfg.loops_in_range := by
  unfold Config.loops_in_range; infer_instance

/-- The bit `j` of the word `i` of a kernel mask (a word outside the array reads
as zero). -/
def kernel_sigset_t.bit (set : kernel_sigset_t) (i j : Nat) : Bool :=
  (set.sig.getD i 0).testBit j

/-- The signal number kept in bit `j` of word `i`. -/
def signal_of_bit (cfg : Config) (i j : Nat) : Int :=
  ((i * cfg._NSIG_BPW + j : Nat) : Int) + 1

/-! ## Alignment of the extended state -/

/-- The constant `#define AVX_ALIGNMENT 64`. -/
def AVX_ALIGNMENT : Nat := 64

/-- The constant `#define FPSTATE_ALIGNMENT 16`. -/
def FPSTATE_ALIGNMENT : Nat := 16

/-- The macro `#define XSTATE_ALIGNMENT (YMM_ENABLED() ? AVX_ALIGNMENT : FPSTATE_ALIGNMENT)`;
the value of `YMM_ENABLED()` (declared outside this header) is the argument. -/
def XSTATE_ALIGNMENT (ymm_enabled : Bool) : Nat :=
  if ymm_enabled then AVX_ALIGNMENT else FPSTATE_ALIGNMENT

/-! ## Concrete configurations and a concrete portable set -/

/-- Two words of 32 bits, 64 signals. -/
def cfg32 : Config := ⟨2, 32, 64⟩

/-- One word of 64 bits, 64 signals. -/
def cfg64 : Config := ⟨1, 64, 64⟩

/-- A portable set kept as the list of its members. -/
def list_sigset_ops : sigset_ops (List Int) where
  sigemptyset := fun _ => []
  sigaddset := fun u n => n :: u
  sigismember := fun u n => if n ∈ u then 1 else 0

/-! ## The two branches of the mask operations -/

/-- The branch `set->sig[0] |= 1UL << sig;` of `kernel_sigaddset`, taken when
`_NSIG_WORDS == 1`. -/
def kernel_sigaddset_single (cfg : Config) (set : kernel_sigset_t) (sig : Nat) :
    Option kernel_sigset_t := do
  let bit ← ulong_shl cfg 1 sig
  let w ← set.sig[0]?
  pure ⟨set.sig.set 0 (w ||| bit)⟩

/-- The branch `set->sig[sig / _NSIG_BPW] |= 1UL << (sig % _NSIG_BPW);` of
`kernel_sigaddset`. -/
def kernel_sigaddset_general (cfg : Config) (set : kernel_sigset_t) (sig : Nat) :
    Option kernel_sigset_t := do
  let bit ← ulong_shl cfg 1 (sig % cfg._NSIG_BPW)
  let w ← set.sig[sig / cfg._NSIG_BPW]?
  pure ⟨set.sig.set (sig / cfg._NSIG_BPW) (w ||| bit)⟩

/-- The branch `set->sig[0] &= ~(1UL << sig);` of `kernel_sigdelset`, taken when
`_NSIG_WORDS == 1`. -/
def kernel_sigdelset_single (cfg : Config) (set : kernel_sigset_t) (sig : Nat) :
    Option kernel_sigset_t := do
  let bit ← ulong_shl cfg 1 sig
  let w ← set.sig[0]?
  pure ⟨set.sig.set 0 (w &&& ulong_not cfg bit)⟩

/-- The branch `set->sig[sig / _NSIG_BPW] &= ~(1UL << (sig % _NSIG_BPW));` of
`kernel_sigdelset`. -/
def kernel_sigdelset_general (cfg : Config) (set : kernel_sigset_t) (sig : Nat) :
    Option kernel_sigset_t := do
  let bit ← ulong_shl cfg 1 (sig % cfg._NSIG_BPW)
  let w ← set.sig[sig / cfg._NSIG_BPW]?
  pure ⟨set.sig.set (sig / cfg._NSIG_BPW) (w &&& ulong_not cfg bit)⟩

/-- The branch `return CAST_TO_bool(1 & (set->sig[0] >> sig));` of
`kernel_sigismember`, taken when `_NSIG_WORDS == 1`. -/
def kernel_sigismember_single (cfg : Config) (set : kernel_sigset_t) (sig : Int) :
    Option Bool := do
  let w ← set.word 0
  let sh ← ulong_shr cfg w sig
  pure (CAST_TO_bool (1 &&& sh))

/-- The branch
`return CAST_TO_bool(1 & (set->sig[sig / _NSIG_BPW] >> (sig % _NSIG_BPW)));` of
`kernel_sigismember`. -/
def kernel_sigismember_general (cfg : Config) (set : kernel_sigset_t) (sig : Int) :
    Option Bool := do
  let w ← set.word (Int.tdiv sig cfg._NSIG_BPW)
  let sh ← ulong_shr cfg w (Int.tmod sig cfg._NSIG_BPW)
  pure (CAST_TO_bool (1 &&& sh))

/-- Successive calls `kernel_sigaddset(kset, sig)` for the signals of a list, in
the order of the list. -/
def kernel_sigaddset_each (cfg : Config) :
    kernel_sigset_t → List Int → Option kernel_sigset_t
  | kset, [] => some kset
  | kset, sig :: rest => do
    let kset1 ← kernel_sigaddset cfg kset sig
    kernel_sigaddset_each cfg kset1 rest

/-! ## Pending signals -/

/-- The alignment of the member `xstate` of `sigpending_t`, declared as
`struct _xstate __attribute__ ((aligned (AVX_ALIGNMENT))) xstate;`: it does not
mention `YMM_ENABLED()`. -/
def sigpending_t_xstate_alignment : Nat := AVX_ALIGNMENT

/-- A node of a pending list, `sigpending_t`: `rt_frame` names the queued frame,
the reserved `xstate` has no content of its own here, and the link `next` is the
tail of the list that holds the node. -/
structure sigpending_t where
  rt_frame : Nat
  access_address : Nat
  use_sigcontext : Bool
  unblocked : Bool
deriving DecidableEq, Repr

/-- The members of `thread_sig_info_t` that the pending-signal queue reads and
writes: the list heads `sigpending[SIGARRAY_SIZE]` (a head with its `next` links
is a list, oldest entry first), the flag `accessing_sigpending` and the blocked
mask `app_sigblocked`. -/
structure thread_sig_info_t where
  sigpending : Nat → List sigpending_t
  accessing_sigpending : Bool
  app_sigblocked : kernel_sigset_t

/-- Modelled from the spec: the retention policy of the pending-signal queue,
whose code (`signal.c`) is not in the header. The specification caps the entries
retained per signal number at a small bound for the signals that are not of the
realtime class and leaves the bound as a policy constant. -/
structure pending_policy where
  cap : Nat
  realtime : Nat → Bool

/-- Modelled from the spec: the operation `enqueue(thread-state, signum, frame,
flags)` of the pending-signal queue, whose code (`signal.c`) is not in the
header. The entry is appended to the tail of the list of its signal number and
the reentrancy guard is clear on exit; an entry in excess of the cap of a
signal number that is not of the realtime class is dropped, one entry at least
being retained. -/
def enqueue (pol : pending_policy) (info : thread_sig_info_t) (signum : Nat)
    (pend : sigpending_t) : thread_sig_info_t :=
  if !pol.realtime signum && decide (pol.cap ≤ (info.sigpending signum).length) &&
      decide (0 < (info.sigpending signum).length) then
    info
  else
    { info with
      sigpending := Function.update info.sigpending signum (info.sigpending signum ++ [pend])
      accessing_sigpending := false }

/-- Modelled from the spec: the re-check of the application block mask at
delivery, whose code (`signal.c`) is not in the header; a signal is delivered
only when `kernel_sigismember` finds it absent from `app_sigblocked`. -/
def signal_blocked (cfg : Config) (info : thread_sig_info_t) (signum : Nat) : Bool :=
  kernel_sigismember cfg info.app_sigblocked (signum : Int) != some false

/-- Modelled from the spec: a signal number that `drain` can deliver, that is one
with a pending entry and not blocked (the code, `signal.c`, is not in the
header). -/
def deliverable (cfg : Config) (info : thread_sig_info_t) (signum : Nat) : Bool :=
  !(info.sigpending signum).isEmpty && !signal_blocked cfg info signum

/-- Modelled from the spec: the transition `dequeue-oldest` of the
pending-signal queue, whose code (`signal.c`) is not in the header. The signal
numbers `1 .. MAX_SIGNUM` are scanned in ascending order; the oldest entry of the
first number that has one and is not blocked is removed and returned with its
number; the entries of a blocked number are left queued. -/
def dequeue_oldest (cfg : Config) (info : thread_sig_info_t) :
    Option ((Nat × sigpending_t) × thread_sig_info_t) :=
  match (List.range' 1 cfg.MAX_SIGNUM).find? (deliverable cfg info) with
  | none => none
  | some signum =>
    match info.sigpending signum with
    | [] => none
    | pend :: rest =>
      some ((signum, pend),
        { info with sigpending := Function.update info.sigpending signum rest })

/-- Modelled from the spec: the number of entries that `drain` has to deliver,
those of the signal numbers `1 .. MAX_SIGNUM` that are not blocked (the code,
`signal.c`, is not in the header). -/
def deliverable_count (cfg : Config) (info : thread_sig_info_t) : Nat :=
  ((List.range' 1 cfg.MAX_SIGNUM).map
    (fun signum => if signal_blocked cfg info signum then 0
      else (info.sigpending signum).length)).sum

/-- Modelled from the spec: the repetition of `dequeue-oldest` inside `drain`,
at most `fuel` times (the code, `signal.c`, is not in the header); the result is
the sequence of deliveries, first delivered first, and the state left. -/
def drain_loop (cfg : Config) :
    Nat → thread_sig_info_t → List (Nat × sigpending_t) × thread_sig_info_t
  | 0, info => ([], info)
  | fuel + 1, info =>
    match dequeue_oldest cfg info with
    | none => ([], info)
    | some (d, info1) => (d :: (drain_loop cfg fuel info1).1, (drain_loop cfg fuel info1).2)

/-- Modelled from the spec: the operation `drain(thread-state)` of the
pending-signal queue, whose code (`signal.c`) is not in the header: the oldest
deliverable entry is dequeued and delivered, repeatedly, until none is left. -/
def drain (cfg : Config) (info : thread_sig_info_t) :
    List (Nat × sigpending_t) × thread_sig_info_t :=
  drain_loop cfg (deliverable_count cfg info) info

/-- A retention policy with a cap of three entries, the realtime class being the
signal numbers from 32 up. -/
def policy3 : pending_policy := ⟨3, fun signum => decide (32 ≤ signum)⟩

/-- A thread state with one entry pending for signal 5 and nothing blocked. -/
def info_one_pending : thread_sig_info_t :=
  ⟨fun signum => if signum = 5 then [⟨100, 0, false, true⟩] else [], false, ⟨[0]⟩⟩

/-- Three pending entries `A`, `B`, `C`, told apart by their frames. -/
def pending_A : sigpending_t := ⟨1, 0, false, true⟩

/-- The second of the three pending entries. -/
def pending_B : sigpending_t := ⟨2, 0, false, true⟩

/-- The third of the three pending entries. -/
def pending_C : sigpending_t := ⟨3, 0, false, true⟩

/-! # Lemmas -/

/-! ## C integers on valid signal numbers -/

theorem int_sub_one_of_valid (n : Int) (h1 : 1 ≤ n) (h3 : n ≤ INT_MAX) :
    int_sub n 1 = some (n - 1) := by
  unfold int_sub INT_MIN INT_MAX at *
  rw [if_pos]
  constructor <;> omega

theorem uint_of_int_of_valid (n : Int) (h1 : 1 ≤ n) (h3 : n ≤ INT_MAX) :
    uint_of_int (n - 1) = (n - 1).toNat := by
  unfold uint_of_int
  unfold INT_MAX at h3
  congr 1
  apply Int.emod_eq_of_lt <;> omega

/-- A valid signal number falls inside the `sig` array and inside the word. -/
theorem position_in_range (cfg : Config) (n : Int) (h1 : 1 ≤ n)
    (h2 : n ≤ (cfg._NSIG_WORDS * cfg._NSIG_BPW : Nat)) :
    0 < cfg._NSIG_BPW ∧ (n - 1).toNat / cfg._NSIG_BPW < cfg._NSIG_WORDS ∧
      (n - 1).toNat % cfg._NSIG_BPW < cfg._NSIG_BPW := by
  have hpos : 0 < cfg._NSIG_BPW := by
    rcases Nat.eq_zero_or_pos cfg._NSIG_BPW with h0 | h0
    · rw [h0] at h2; simp at h2; omega
    · exact h0
  refine ⟨hpos, ?_, Nat.mod_lt _ hpos⟩
  apply Nat.div_lt_of_lt_mul
  have : ((n - 1).toNat : Int) < (cfg._NSIG_WORDS * cfg._NSIG_BPW : Nat) := by omega
  have h := Int.ofNat_lt.mp this
  rwa [Nat.mul_comm] at h

/-- With a single word, the position of a valid signal number is its own
remainder and its word index is zero. -/
theorem position_single_word (cfg : Config) (n : Int) (h1 : 1 ≤ n)
    (h2 : n ≤ (cfg._NSIG_WORDS * cfg._NSIG_BPW : Nat)) (hw : cfg._NSIG_WORDS = 1) :
    (n - 1).toNat / cfg._NSIG_BPW = 0 ∧ (n - 1).toNat % cfg._NSIG_BPW = (n - 1).toNat := by
  have hlt : (n - 1).toNat < cfg._NSIG_BPW := by
    rw [hw, Nat.one_mul] at h2; omega
  exact ⟨Nat.div_eq_of_lt hlt, Nat.mod_eq_of_lt hlt⟩

theorem ulong_shl_one (cfg : Config) (sh : Nat) (h : sh < cfg._NSIG_BPW) :
    ulong_shl cfg 1 sh = some (2 ^ sh) := by
  unfold ulong_shl
  rw [if_pos h, Nat.one_shiftLeft,
    Nat.mod_eq_of_lt (Nat.pow_lt_pow_right (by decide) h)]

theorem getElem?_eq_some_getD (l : List Nat) (i : Nat) (h : i < l.length) :
    l[i]? = some (l.getD i 0) := by
  rw [List.getD_eq_getElem?_getD, List.getElem?_eq_getElem h]; rfl

/-- Closed form of `kernel_sigaddset` on a valid signal number. -/
theorem kernel_sigaddset_valid (cfg : Config) (s : kernel_sigset_t) (n : Int)
    (hlen : s.sig.length = cfg._NSIG_WORDS) (h1 : 1 ≤ n)
    (h2 : n ≤ (cfg._NSIG_WORDS * cfg._NSIG_BPW : Nat)) (h3 : n ≤ INT_MAX) :
    kernel_sigaddset cfg s n =
      some ⟨s.sig.set ((n - 1).toNat / cfg._NSIG_BPW)
        (s.sig.getD ((n - 1).toNat / cfg._NSIG_BPW) 0 |||
          2 ^ ((n - 1).toNat % cfg._NSIG_BPW))⟩ := by
  obtain ⟨hpos, hdiv, hmod⟩ := position_in_range cfg n h1 h2
  unfold kernel_sigaddset
  rw [int_sub_one_of_valid n h1 h3]
  simp only [Option.bind_eq_bind, Option.some_bind, Option.pure_def, uint_of_int_of_valid n h1 h3]
  by_cases hw : cfg._NSIG_WORDS = 1
  · obtain ⟨hd0, hm0⟩ := position_single_word cfg n h1 h2 hw
    rw [hm0] at hmod
    rw [if_pos hw, ulong_shl_one cfg _ hmod,
      getElem?_eq_some_getD s.sig 0 (by omega), hd0, hm0]
    rfl
  · rw [if_neg hw, ulong_shl_one cfg _ hmod,
      getElem?_eq_some_getD s.sig _ (by omega)]
    rfl

/-- Closed form of `kernel_sigdelset` on a valid signal number. -/
theorem kernel_sigdelset_valid (cfg : Config) (s : kernel_sigset_t) (n : Int)
    (hlen : s.sig.length = cfg._NSIG_WORDS) (h1 : 1 ≤ n)
    (h2 : n ≤ (cfg._NSIG_WORDS * cfg._NSIG_BPW : Nat)) (h3 : n ≤ INT_MAX) :
    kernel_sigdelset cfg s n =
      some ⟨s.sig.set ((n - 1).toNat / cfg._NSIG_BPW)
        (s.sig.getD ((n - 1).toNat / cfg._NSIG_BPW) 0 &&&
          ulong_not cfg (2 ^ ((n - 1).toNat % cfg._NSIG_BPW)))⟩ := by
  obtain ⟨hpos, hdiv, hmod⟩ := position_in_range cfg n h1 h2
  unfold kernel_sigdelset
  rw [int_sub_one_of_valid n h1 h3]
  simp only [Option.bind_eq_bind, Option.some_bind, Option.pure_def, uint_of_int_of_valid n h1 h3]
  by_cases hw : cfg._NSIG_WORDS = 1
  · obtain ⟨hd0, hm0⟩ := position_single_word cfg n h1 h2 hw
    rw [hm0] at hmod
    rw [if_pos hw, ulong_shl_one cfg _ hmod,
      getElem?_eq_some_getD s.sig 0 (by omega), hd0, hm0]
    rfl
  · rw [if_neg hw, ulong_shl_one cfg _ hmod,
      getElem?_eq_some_getD s.sig _ (by omega)]
    rfl

theorem ulong_shr_of_lt (cfg : Config) (w p : Nat) (h : p < cfg._NSIG_BPW) :
    ulong_shr cfg w (p : Int) = some (w >>> p) := by
  unfold ulong_shr
  rw [if_pos ⟨Int.ofNat_nonneg p, Int.ofNat_lt.mpr h⟩, Int.toNat_ofNat]

theorem word_ofNat (s : kernel_sigset_t) (i : Nat) (h : i < s.sig.length) :
    s.word (i : Int) = some (s.sig.getD i 0) := by
  unfold kernel_sigset_t.word
  rw [if_pos (Int.ofNat_nonneg i), Int.toNat_ofNat, getElem?_eq_some_getD _ _ h]

theorem CAST_TO_bool_and_one (w p : Nat) : CAST_TO_bool (1 &&& w >>> p) = w.testBit p := rfl

/-- Closed form of `kernel_sigismember` on a valid signal number: the bit
`(n - 1) mod _NSIG_BPW` of the word `(n - 1) div _NSIG_BPW`. -/
theorem kernel_sigismember_valid (cfg : Config) (s : kernel_sigset_t) (n : Int)
    (hlen : s.sig.length = cfg._NSIG_WORDS) (h1 : 1 ≤ n)
    (h2 : n ≤ (cfg._NSIG_WORDS * cfg._NSIG_BPW : Nat)) (h3 : n ≤ INT_MAX) :
    kernel_sigismember cfg s n =
      some ((s.sig.getD ((n - 1).toNat / cfg._NSIG_BPW) 0).testBit
        ((n - 1).toNat % cfg._NSIG_BPW)) := by
  obtain ⟨hpos, hdiv, hmod⟩ := position_in_range cfg n h1 h2
  unfold kernel_sigismember
  rw [int_sub_one_of_valid n h1 h3]
  have hp : n - 1 = ((n - 1).toNat : Int) := (Int.toNat_of_nonneg (by omega)).symm
  generalize (n - 1).toNat = p at *
  rw [hp]
  simp only [Option.bind_eq_bind, Option.some_bind, Option.pure_def]
  by_cases hw : cfg._NSIG_WORDS = 1
  · have hlt : p < cfg._NSIG_BPW := by
      have := (Nat.div_lt_iff_lt_mul hpos).mp hdiv
      rw [hw] at this; omega
    rw [if_pos hw, Nat.div_eq_of_lt hlt, Nat.mod_eq_of_lt hlt]
    have h0 := word_ofNat s 0 (by omega)
    simp only [Nat.cast_zero] at h0
    rw [h0, Option.some_bind, ulong_shr_of_lt cfg _ p hlt, Option.some_bind,
      CAST_TO_bool_and_one]
  · have hd : Int.tdiv (p : Int) (cfg._NSIG_BPW : Int) = ((p / cfg._NSIG_BPW : Nat) : Int) := rfl
    have hm : Int.tmod (p : Int) (cfg._NSIG_BPW : Int) = ((p % cfg._NSIG_BPW : Nat) : Int) := rfl
    rw [if_neg hw, hd, hm, word_ofNat s _ (by omega), Option.some_bind,
      ulong_shr_of_lt cfg _ _ hmod, Option.some_bind, CAST_TO_bool_and_one]

theorem testBit_ulong_not_two_pow (cfg : Config) (b i : Nat) (h : b < cfg._NSIG_BPW) :
    (ulong_not cfg (2 ^ b)).testBit i = (decide (i < cfg._NSIG_BPW) && !decide (b = i)) := by
  have hlt : 2 ^ b < 2 ^ cfg._NSIG_BPW := Nat.pow_lt_pow_right (by decide) h
  unfold ulong_not
  rw [Nat.mod_eq_of_lt hlt, Nat.sub_sub, Nat.add_comm 1,
    Nat.testBit_two_pow_sub_succ hlt, Nat.testBit_two_pow]

theorem getD_set_self (l : List Nat) (i v : Nat) (h : i < l.length) :
    (l.set i v).getD i 0 = v := by
  rw [List.getD_eq_getElem?_getD, List.getElem?_set]
  simp [h]

theorem getD_set_of_ne (l : List Nat) (i j v : Nat) (h : i ≠ j) :
    (l.set i v).getD j 0 = l.getD j 0 := by
  rw [List.getD_eq_getElem?_getD, List.getD_eq_getElem?_getD, List.getElem?_set]
  simp [h]

/-! ## The conversion loops -/

theorem int_add_one_of_lt (a : Int) (h1 : 1 ≤ a) (h2 : a < INT_MAX) :
    int_add a 1 = some (a + 1) := by
  unfold int_add INT_MIN INT_MAX at *
  rw [if_pos]
  constructor <;> omega

/-- The loop of `copy_kernel_sigset_to_sigset` started at `a` with `todo`
iterations left returns, and inside `dom` it adds exactly the signals of
`a .. a + todo - 1` that are members of the kernel mask. -/
theorem copy_kernel_sigset_to_sigset_loop_spec {σ : Type} (cfg : Config) (ops : sigset_ops σ)
    (dom : Int → Prop) (hops : ops.ideal_on cfg dom) (k : kernel_sigset_t)
    (hk : k.sig.length = cfg._NSIG_WORDS) (hcfg : cfg.loops_in_range) :
    ∀ (todo : Nat) (a : Int) (u : σ), 1 ≤ a → a + (todo : Int) ≤ (cfg.MAX_SIGNUM : Int) + 1 →
      ∃ r, copy_kernel_sigset_to_sigset_loop cfg ops k todo a u = some r ∧
        ∀ n, dom n → ops.member r n =
          ((decide (a ≤ n ∧ n < a + (todo : Int)) &&
            decide (kernel_sigismember cfg k n = some true)) || ops.member u n) := by
  intro todo
  induction todo with
  | zero =>
    intro a u _ _
    refine ⟨u, rfl, ?_⟩
    intro n _
    have : ¬(a ≤ n ∧ n < a + ((0 : Nat) : Int)) := by omega
    simp [this]
  | succ t ih =>
    intro a u ha hb
    obtain ⟨hmax, hint⟩ := hcfg
    have hale : a ≤ (cfg.MAX_SIGNUM : Int) := by omega
    have ha2 : a ≤ ((cfg._NSIG_WORDS * cfg._NSIG_BPW : Nat) : Int) :=
      le_trans hale (Int.ofNat_le.mpr hmax)
    have hv := kernel_sigismember_valid cfg k a hk ha ha2 (by omega)
    obtain ⟨r, hr, hmem⟩ := ih (a + 1)
      (if (k.sig.getD ((a - 1).toNat / cfg._NSIG_BPW) 0).testBit
          ((a - 1).toNat % cfg._NSIG_BPW) then ops.sigaddset u a else u)
      (by omega) (by push_cast at hb ⊢; omega)
    refine ⟨r, ?_, ?_⟩
    · simp only [copy_kernel_sigset_to_sigset_loop, Option.bind_eq_bind]
      rw [hv, Option.some_bind, int_add_one_of_lt a ha (by omega), Option.some_bind, hr]
    · intro n hn
      rw [hmem n hn]
      generalize (k.sig.getD ((a - 1).toNat / cfg._NSIG_BPW) 0).testBit
        ((a - 1).toNat % cfg._NSIG_BPW) = b at hv
      by_cases hna : n = a
      · subst hna
        have h1 : ¬(n + 1 ≤ n ∧ n < n + 1 + (t : Int)) := by omega
        have h2 : n ≤ n ∧ n < n + ((t + 1 : Nat) : Int) := by push_cast; omega
        cases b
        · simp [hv, h1]
        · simp [hv, h1, h2, hops.2 u n n ha hale hn]
      · have h1 : decide (a ≤ n ∧ n < a + ((t + 1 : Nat) : Int)) =
            decide (a + 1 ≤ n ∧ n < a + 1 + (t : Int)) :=
          decide_eq_decide.mpr (by push_cast; omega)
        rw [h1]
        cases b
        · simp
        · simp [hna, hops.2 u a n ha hale hn]

/-- Result of `copy_kernel_sigset_to_sigset` inside `dom`: the call returns a
set whose members in `dom` are the signals of `1 .. MAX_SIGNUM` that are members
of the kernel mask. -/
theorem copy_kernel_sigset_to_sigset_spec {σ : Type} (cfg : Config) (ops : sigset_ops σ)
    (dom : Int → Prop) (hops : ops.ideal_on cfg dom) (k : kernel_sigset_t)
    (hk : k.sig.length = cfg._NSIG_WORDS) (hcfg : cfg.loops_in_range) (u : σ) :
    ∃ r, copy_kernel_sigset_to_sigset cfg ops k u = some r ∧
      ∀ n, dom n → ops.member r n =
        (decide (1 ≤ n ∧ n ≤ (cfg.MAX_SIGNUM : Int)) &&
          decide (kernel_sigismember cfg k n = some true)) := by
  obtain ⟨r, hr, hmem⟩ := copy_kernel_sigset_to_sigset_loop_spec cfg ops dom hops k hk hcfg
    cfg.MAX_SIGNUM 1 (ops.sigemptyset u) (le_refl 1) (by omega)
  refine ⟨r, hr, ?_⟩
  intro n hn
  rw [hmem n hn, hops.1 u n hn, Bool.or_false]
  have : (1 ≤ n ∧ n < 1 + (cfg.MAX_SIGNUM : Int)) ↔ (1 ≤ n ∧ n ≤ (cfg.MAX_SIGNUM : Int)) := by
    omega
  simp [this]

/-- Word index and bit index of a 0-based position, against the signal number
kept in a bit. -/
theorem position_iff_signal_of_bit (cfg : Config) (n : Int) (h1 : 1 ≤ n) (i j : Nat)
    (hpos : 0 < cfg._NSIG_BPW) :
    (i = (n - 1).toNat / cfg._NSIG_BPW ∧ (n - 1).toNat % cfg._NSIG_BPW = j) ↔
      (j < cfg._NSIG_BPW ∧ signal_of_bit cfg i j = n) := by
  unfold signal_of_bit
  have hp : n - 1 = ((n - 1).toNat : Int) := (Int.toNat_of_nonneg (by omega)).symm
  generalize (n - 1).toNat = p at hp
  have hn : n = (p : Int) + 1 := by omega
  subst hn
  constructor
  · rintro ⟨hi, hj⟩
    refine ⟨hj ▸ Nat.mod_lt _ hpos, ?_⟩
    have := Nat.div_add_mod' p cfg._NSIG_BPW
    rw [hi, ← hj, this]
  · rintro ⟨hj, hs⟩
    have hp2 : i * cfg._NSIG_BPW + j = p := by
      have : ((i * cfg._NSIG_BPW + j : Nat) : Int) = (p : Int) := by omega
      exact Int.ofNat_inj.mp this
    subst hp2
    constructor
    · rw [Nat.add_comm, Nat.add_mul_div_right _ _ hpos, Nat.div_eq_of_lt hj, Nat.zero_add]
    · rw [Nat.add_comm, Nat.add_mul_mod_self_right, Nat.mod_eq_of_lt hj]

theorem bounded_set (l : List Nat) (i v b : Nat) (hl : ∀ w ∈ l, w < b) (hv : v < b) :
    ∀ w ∈ l.set i v, w < b := by
  intro w hw
  rcases List.mem_or_eq_of_mem_set hw with h | h
  · exact hl w h
  · rw [h]; exact hv

theorem getD_lt_of_bounded (l : List Nat) (i b : Nat) (hb : 0 < b) (hl : ∀ w ∈ l, w < b) :
    l.getD i 0 < b := by
  rw [List.getD_eq_getElem?_getD]
  by_cases h : i < l.length
  · rw [List.getElem?_eq_getElem h]
    exact hl _ (List.getElem_mem h)
  · rw [List.getElem?_eq_none (by omega)]
    exact hb

/-- Effect of `kernel_sigaddset` on a valid signal number, bit by bit: the call
returns a mask of the same shape in which the bit of `n` is set and every other
bit is unchanged. -/
theorem kernel_sigaddset_bits (cfg : Config) (s : kernel_sigset_t) (n : Int)
    (hs : s.wf cfg) (h1 : 1 ≤ n) (h2 : n ≤ (cfg._NSIG_WORDS * cfg._NSIG_BPW : Nat))
    (h3 : n ≤ INT_MAX) :
    ∃ s1, kernel_sigaddset cfg s n = some s1 ∧ s1.wf cfg ∧
      ∀ i j, s1.bit i j =
        (s.bit i j || decide (j < cfg._NSIG_BPW ∧ signal_of_bit cfg i j = n)) := by
  obtain ⟨hpos, hdiv, hmod⟩ := position_in_range cfg n h1 h2
  refine ⟨_, kernel_sigaddset_valid cfg s n hs.1 h1 h2 h3, ⟨?_, ?_⟩, ?_⟩
  · simpa using hs.1
  · apply bounded_set _ _ _ _ hs.2
    exact Nat.or_lt_two_pow (getD_lt_of_bounded _ _ _ (Nat.two_pow_pos _) hs.2)
      (Nat.pow_lt_pow_right (by decide) hmod)
  · intro i j
    unfold kernel_sigset_t.bit
    rw [← decide_eq_decide.mpr (position_iff_signal_of_bit cfg n h1 i j hpos)]
    by_cases hi : i = (n - 1).toNat / cfg._NSIG_BPW
    · subst hi
      rw [getD_set_self _ _ _ (by rw [hs.1]; exact hdiv), Nat.testBit_or, Nat.testBit_two_pow]
      simp
    · rw [getD_set_of_ne _ _ _ _ (Ne.symm hi), decide_eq_false (fun h => hi h.1),
        Bool.or_false]

theorem ulong_of_bytes_zero (m : Nat) : ulong_of_bytes (List.replicate m 0) = 0 := by
  induction m with
  | zero => rfl
  | succ m ih =>
    rw [List.replicate_succ]
    unfold ulong_of_bytes at *
    rw [List.foldr_cons, ih]

theorem kernel_sigemptyset_sig (cfg : Config) (s : kernel_sigset_t) :
    (kernel_sigemptyset cfg s).sig = List.replicate cfg._NSIG_WORDS 0 := by
  unfold kernel_sigemptyset memset_sigset
  have : ((0 : Int) % 256).toNat = 0 := by decide
  rw [this, ulong_of_bytes_zero]

theorem kernel_sigemptyset_wf (cfg : Config) (s : kernel_sigset_t) :
    (kernel_sigemptyset cfg s).wf cfg := by
  unfold kernel_sigset_t.wf
  rw [kernel_sigemptyset_sig]
  refine ⟨List.length_replicate _ _, ?_⟩
  intro w hw
  rw [(List.mem_replicate.mp hw).2]
  exact Nat.two_pow_pos _

theorem kernel_sigemptyset_bit (cfg : Config) (s : kernel_sigset_t) (i j : Nat) :
    (kernel_sigemptyset cfg s).bit i j = false := by
  unfold kernel_sigset_t.bit
  rw [kernel_sigemptyset_sig, List.getD_eq_getElem?_getD]
  by_cases h : i < cfg._NSIG_WORDS
  · rw [List.getElem?_eq_getElem (by simpa using h)]
    simp
  · rw [List.getElem?_eq_none (by simpa using h)]
    simp

/-- The loop of `copy_sigset_to_kernel_sigset` started at `a` with `todo`
iterations left returns a mask of the same shape, in which exactly the bits of
the members of `uset` among `a .. a + todo - 1` have been set. -/
theorem copy_sigset_to_kernel_sigset_loop_spec {σ : Type} (cfg : Config) (ops : sigset_ops σ)
    (u : σ) (hcfg : cfg.loops_in_range) :
    ∀ (todo : Nat) (a : Int) (k : kernel_sigset_t), k.wf cfg → 1 ≤ a →
      a + (todo : Int) ≤ (cfg.MAX_SIGNUM : Int) + 1 →
      ∃ r, copy_sigset_to_kernel_sigset_loop cfg ops u todo a k = some r ∧ r.wf cfg ∧
        ∀ i j, r.bit i j =
          (k.bit i j ||
            (decide (j < cfg._NSIG_BPW ∧ a ≤ signal_of_bit cfg i j ∧
              signal_of_bit cfg i j < a + (todo : Int)) &&
              ops.member u (signal_of_bit cfg i j))) := by
  intro todo
  induction todo with
  | zero =>
    intro a k hk _ _
    refine ⟨k, rfl, hk, ?_⟩
    intro i j
    have : ¬(j < cfg._NSIG_BPW ∧ a ≤ signal_of_bit cfg i j ∧
        signal_of_bit cfg i j < a + ((0 : Nat) : Int)) := by omega
    rw [decide_eq_false this, Bool.false_and, Bool.or_false]
  | succ t ih =>
    intro a k hk ha hb
    have hale : a ≤ (cfg.MAX_SIGNUM : Int) := by omega
    have ha2 : a ≤ ((cfg._NSIG_WORDS * cfg._NSIG_BPW : Nat) : Int) :=
      le_trans hale (Int.ofNat_le.mpr hcfg.1)
    have ha3 : a < INT_MAX := lt_of_le_of_lt hale hcfg.2
    simp only [copy_sigset_to_kernel_sigset_loop, Option.bind_eq_bind]
    by_cases hm : ops.member u a = true
    · obtain ⟨k1, hk1, hwf1, hbit1⟩ := kernel_sigaddset_bits cfg k a hk ha ha2 (le_of_lt ha3)
      obtain ⟨r, hr, hwf, hbit⟩ := ih (a + 1) k1 hwf1 (by omega) (by push_cast at hb ⊢; omega)
      refine ⟨r, ?_, hwf, ?_⟩
      · rw [if_pos hm, hk1, Option.some_bind, int_add_one_of_lt a ha ha3, Option.some_bind, hr]
      · intro i j
        rw [hbit i j, hbit1 i j]
        by_cases hs : signal_of_bit cfg i j = a
        · have e1 : ¬(j < cfg._NSIG_BPW ∧ a + 1 ≤ signal_of_bit cfg i j ∧
              signal_of_bit cfg i j < a + 1 + (t : Int)) := by omega
          rw [decide_eq_false e1, hs]
          by_cases hj : j < cfg._NSIG_BPW
          · have e2 : j < cfg._NSIG_BPW ∧ a ≤ a ∧ a < a + ((t + 1 : Nat) : Int) :=
              ⟨hj, le_refl a, by push_cast; omega⟩
            simp [hj, e2, hm]
          · have e2 : ¬(j < cfg._NSIG_BPW ∧ a ≤ a ∧ a < a + ((t + 1 : Nat) : Int)) :=
              fun h => hj h.1
            rw [decide_eq_false e2]
            simp [hj]
        · have e1 : decide (j < cfg._NSIG_BPW ∧ a ≤ signal_of_bit cfg i j ∧
              signal_of_bit cfg i j < a + ((t + 1 : Nat) : Int)) =
              decide (j < cfg._NSIG_BPW ∧ a + 1 ≤ signal_of_bit cfg i j ∧
                signal_of_bit cfg i j < a + 1 + (t : Int)) :=
            decide_eq_decide.mpr (by push_cast; omega)
          rw [e1, decide_eq_false (fun h => hs h.2), Bool.or_false]
    · obtain ⟨r, hr, hwf, hbit⟩ := ih (a + 1) k hk (by omega) (by push_cast at hb ⊢; omega)
      have hm2 : ops.member u a = false := by simpa using hm
      refine ⟨r, ?_, hwf, ?_⟩
      · rw [if_neg hm, Option.some_bind, int_add_one_of_lt a ha ha3, Option.some_bind, hr]
      · intro i j
        rw [hbit i j]
        by_cases hs : signal_of_bit cfg i j = a
        · have e1 : ¬(j < cfg._NSIG_BPW ∧ a + 1 ≤ signal_of_bit cfg i j ∧
              signal_of_bit cfg i j < a + 1 + (t : Int)) := by omega
          rw [decide_eq_false e1, hs, hm2]
          simp
        · have e1 : decide (j < cfg._NSIG_BPW ∧ a ≤ signal_of_bit cfg i j ∧
              signal_of_bit cfg i j < a + ((t + 1 : Nat) : Int)) =
              decide (j < cfg._NSIG_BPW ∧ a + 1 ≤ signal_of_bit cfg i j ∧
                signal_of_bit cfg i j < a + 1 + (t : Int)) :=
            decide_eq_decide.mpr (by push_cast; omega)
          rw [e1]

/-- Result of `copy_sigset_to_kernel_sigset`, bit by bit: the call returns a
mask of the shape of the C type whose set bits are exactly those of the members
of `uset` among `1 .. MAX_SIGNUM`. -/
theorem copy_sigset_to_kernel_sigset_spec {σ : Type} (cfg : Config) (ops : sigset_ops σ)
    (u : σ) (hcfg : cfg.loops_in_range) (k : kernel_sigset_t) :
    ∃ r, copy_sigset_to_kernel_sigset cfg ops u k = some r ∧ r.wf cfg ∧
      ∀ i j, r.bit i j =
        (decide (j < cfg._NSIG_BPW ∧ signal_of_bit cfg i j ≤ (cfg.MAX_SIGNUM : Int)) &&
          ops.member u (signal_of_bit cfg i j)) := by
  obtain ⟨r, hr, hwf, hbit⟩ := copy_sigset_to_kernel_sigset_loop_spec cfg ops u hcfg
    cfg.MAX_SIGNUM 1 (kernel_sigemptyset cfg k) (kernel_sigemptyset_wf cfg k) (le_refl 1)
    (by omega)
  refine ⟨r, hr, hwf, ?_⟩
  intro i j
  rw [hbit i j, kernel_sigemptyset_bit, Bool.false_or]
  congr 1
  apply decide_eq_decide.mpr
  unfold signal_of_bit
  omega

/-- On a valid signal number `kernel_sigismember` reads the bit that
`signal_of_bit` assigns to that number. -/
theorem kernel_sigismember_eq_bit (cfg : Config) (s : kernel_sigset_t) (n : Int)
    (hlen : s.sig.length = cfg._NSIG_WORDS) (h1 : 1 ≤ n)
    (h2 : n ≤ (cfg._NSIG_WORDS * cfg._NSIG_BPW : Nat)) (h3 : n ≤ INT_MAX) :
    kernel_sigismember cfg s n =
        some (s.bit ((n - 1).toNat / cfg._NSIG_BPW) ((n - 1).toNat % cfg._NSIG_BPW)) ∧
      (n - 1).toNat % cfg._NSIG_BPW < cfg._NSIG_BPW ∧
      signal_of_bit cfg ((n - 1).toNat / cfg._NSIG_BPW) ((n - 1).toNat % cfg._NSIG_BPW) = n := by
  obtain ⟨hpos, _, hmod⟩ := position_in_range cfg n h1 h2
  refine ⟨kernel_sigismember_valid cfg s n hlen h1 h2 h3, hmod, ?_⟩
  exact ((position_iff_signal_of_bit cfg n h1 _ _ hpos).mp ⟨rfl, rfl⟩).2

/-- Membership in the mask returned by `copy_sigset_to_kernel_sigset`, read
back with `kernel_sigismember`. -/
theorem copy_sigset_to_kernel_sigset_ismember {σ : Type} (cfg : Config) (ops : sigset_ops σ)
    (u : σ) (hcfg : cfg.loops_in_range) (r : kernel_sigset_t) (hwf : r.wf cfg)
    (hbit : ∀ i j, r.bit i j =
      (decide (j < cfg._NSIG_BPW ∧ signal_of_bit cfg i j ≤ (cfg.MAX_SIGNUM : Int)) &&
        ops.member u (signal_of_bit cfg i j)))
    (n : Int) (h1 : 1 ≤ n) (h2 : n ≤ (cfg.MAX_SIGNUM : Int)) :
    kernel_sigismember cfg r n = some (ops.member u n) := by
  have h2w : n ≤ ((cfg._NSIG_WORDS * cfg._NSIG_BPW : Nat) : Int) :=
    le_trans h2 (Int.ofNat_le.mpr hcfg.1)
  have h3 : n ≤ INT_MAX := le_of_lt (lt_of_le_of_lt h2 hcfg.2)
  obtain ⟨hv, hmod, hsig⟩ := kernel_sigismember_eq_bit cfg r n hwf.1 h1 h2w h3
  rw [hv, hbit, hsig, decide_eq_true ⟨hmod, h2⟩, Bool.true_and]

/-- Two masks of the same length with the same bits are equal. -/
theorem kernel_sigset_t_ext (s1 s2 : kernel_sigset_t) (hlen : s1.sig.length = s2.sig.length)
    (hbit : ∀ i j, s1.bit i j = s2.bit i j) : s1 = s2 := by
  cases s1 with
  | mk l1 =>
    cases s2 with
    | mk l2 =>
      simp only [kernel_sigset_t.mk.injEq]
      apply List.ext_getElem? 
      intro i
      have hw : l1.getD i 0 = l2.getD i 0 := Nat.eq_of_testBit_eq (fun j => hbit i j)
      simp only at hlen
      by_cases hi : i < l1.length
      · rw [getElem?_eq_some_getD l1 i hi, getElem?_eq_some_getD l2 i (hlen ▸ hi), hw]
      · rw [List.getElem?_eq_none (by omega), List.getElem?_eq_none (by omega)]

/-- A bit at or above the width of the word is zero in a mask of the shape of
the C type, and so is every bit of a word outside the array. -/
theorem bit_false_of_outside (cfg : Config) (s : kernel_sigset_t) (hs : s.wf cfg) (i j : Nat)
    (h : ¬(i < cfg._NSIG_WORDS ∧ j < cfg._NSIG_BPW)) : s.bit i j = false := by
  unfold kernel_sigset_t.bit
  by_cases hi : i < cfg._NSIG_WORDS
  · have hj : cfg._NSIG_BPW ≤ j := by
      by_contra hc
      exact h ⟨hi, by omega⟩
    apply Nat.testBit_lt_two_pow
    exact lt_of_lt_of_le (getD_lt_of_bounded _ _ _ (Nat.two_pow_pos _) hs.2)
      (Nat.pow_le_pow_right (by decide) hj)
  · rw [List.getD_eq_getElem?_getD, List.getElem?_eq_none (by rw [hs.1]; omega)]
    simp

/-- The list-backed portable set is an ideal set on every `int`. -/
theorem list_sigset_ops_ideal_everywhere (cfg : Config) :
    list_sigset_ops.ideal_everywhere cfg := by
  refine ⟨?_, ?_⟩
  · intro u n _
    simp [sigset_ops.member, list_sigset_ops]
  · intro u m n _ _ _
    by_cases hnm : n = m
    · simp [sigset_ops.member, list_sigset_ops, hnm]
    · by_cases hu : n ∈ u <;> simp [sigset_ops.member, list_sigset_ops, hnm, hu]

/-- An ideal set on every `int` is an ideal set on `1 .. MAX_SIGNUM`. -/
theorem ideal_of_ideal_everywhere {σ : Type} (cfg : Config) (ops : sigset_ops σ)
    (h : ops.ideal_everywhere cfg) : ops.ideal cfg :=
  ⟨fun u n _ => h.1 u n trivial, fun u m n h1 h2 _ => h.2 u m n h1 h2 trivial⟩

theorem ulong_of_bytes_ones (m : Nat) :
    ulong_of_bytes (List.replicate m 255) = 2 ^ (8 * m) - 1 := by
  induction m with
  | zero => rfl
  | succ m ih =>
    have hstep : ulong_of_bytes (List.replicate (m + 1) 255) =
        255 + 256 * ulong_of_bytes (List.replicate m 255) := by
      rw [List.replicate_succ]; rfl
    have hp : 2 ^ (8 * (m + 1)) = 256 * 2 ^ (8 * m) := by
      rw [Nat.mul_add, Nat.pow_add, Nat.mul_comm]
    have hpos : 0 < 2 ^ (8 * m) := Nat.two_pow_pos _
    rw [hstep, ih, hp]
    omega

theorem kernel_sigfillset_sig (cfg : Config) (s : kernel_sigset_t) (h8 : 8 ∣ cfg._NSIG_BPW) :
    (kernel_sigfillset cfg s).sig =
      List.replicate cfg._NSIG_WORDS (2 ^ cfg._NSIG_BPW - 1) := by
  unfold kernel_sigfillset memset_sigset
  have : ((-1 : Int) % 256).toNat = 255 := by decide
  rw [this, ulong_of_bytes_ones, Nat.mul_div_cancel' h8]

theorem getD_replicate_of_lt (n i v : Nat) (h : i < n) : (List.replicate n v).getD i 0 = v := by
  rw [List.getD_eq_getElem?_getD, List.getElem?_eq_getElem (by simpa using h)]
  simp

/-! ## Frame of add and remove -/

/-- Two valid signal numbers kept at the same word and the same bit are equal. -/
theorem position_injective (cfg : Config) (n m : Int) (hn : 1 ≤ n) (hm : 1 ≤ m)
    (hd : (m - 1).toNat / cfg._NSIG_BPW = (n - 1).toNat / cfg._NSIG_BPW)
    (hr : (m - 1).toNat % cfg._NSIG_BPW = (n - 1).toNat % cfg._NSIG_BPW) : m = n := by
  have h1 := Nat.div_add_mod (m - 1).toNat cfg._NSIG_BPW
  have h2 := Nat.div_add_mod (n - 1).toNat cfg._NSIG_BPW
  rw [hd, hr] at h1
  have h3 : (m - 1).toNat = (n - 1).toNat := h1.symm.trans h2
  omega

/-- Effect of `kernel_sigaddset` on a valid signal number, position by
position: the bits outside the position of `n` are unchanged. -/
theorem kernel_sigaddset_other_bits (cfg : Config) (s : kernel_sigset_t) (n : Int)
    (hs : s.wf cfg) (h1 : 1 ≤ n) (h2 : n ≤ (cfg._NSIG_WORDS * cfg._NSIG_BPW : Nat))
    (h3 : n ≤ INT_MAX) :
    ∃ s1, kernel_sigaddset cfg s n = some s1 ∧ s1.wf cfg ∧
      ∀ i j, ¬(i = (n - 1).toNat / cfg._NSIG_BPW ∧ j = (n - 1).toNat % cfg._NSIG_BPW) →
        s1.bit i j = s.bit i j := by
  obtain ⟨hpos, _, _⟩ := position_in_range cfg n h1 h2
  obtain ⟨s1, hs1, hwf1, hbit⟩ := kernel_sigaddset_bits cfg s n hs h1 h2 h3
  refine ⟨s1, hs1, hwf1, ?_⟩
  intro i j hij
  have hno : ¬(j < cfg._NSIG_BPW ∧ signal_of_bit cfg i j = n) := by
    intro h
    obtain ⟨hi, hj⟩ := (position_iff_signal_of_bit cfg n h1 i j hpos).mpr h
    exact hij ⟨hi, hj.symm⟩
  rw [hbit i j, decide_eq_false hno, Bool.or_false]

/-- Effect of `kernel_sigdelset` on a valid signal number, position by
position: the call returns a mask of the same shape in which the bit of `n` is
clear and every other bit is unchanged. -/
theorem kernel_sigdelset_bits (cfg : Config) (s : kernel_sigset_t) (n : Int)
    (hs : s.wf cfg) (h1 : 1 ≤ n) (h2 : n ≤ (cfg._NSIG_WORDS * cfg._NSIG_BPW : Nat))
    (h3 : n ≤ INT_MAX) :
    ∃ s1, kernel_sigdelset cfg s n = some s1 ∧ s1.wf cfg ∧
      ∀ i j, s1.bit i j =
        (s.bit i j &&
          !decide (i = (n - 1).toNat / cfg._NSIG_BPW ∧ j = (n - 1).toNat % cfg._NSIG_BPW)) := by
  obtain ⟨hpos, hdiv, hmod⟩ := position_in_range cfg n h1 h2
  refine ⟨_, kernel_sigdelset_valid cfg s n hs.1 h1 h2 h3, ⟨?_, ?_⟩, ?_⟩
  · simpa using hs.1
  · apply bounded_set _ _ _ _ hs.2
    exact Nat.lt_of_le_of_lt Nat.and_le_left
      (getD_lt_of_bounded _ _ _ (Nat.two_pow_pos _) hs.2)
  · intro i j
    unfold kernel_sigset_t.bit
    by_cases hi : i = (n - 1).toNat / cfg._NSIG_BPW
    · subst hi
      rw [getD_set_self _ _ _ (by rw [hs.1]; exact hdiv), Nat.testBit_and,
        testBit_ulong_not_two_pow cfg _ _ hmod]
      by_cases hj : j < cfg._NSIG_BPW
      · rw [decide_eq_true hj, Bool.true_and]
        by_cases hb : (n - 1).toNat % cfg._NSIG_BPW = j
        · rw [decide_eq_true hb, decide_eq_true ⟨rfl, hb.symm⟩]
        · rw [decide_eq_false hb, decide_eq_false (fun h => hb h.2.symm)]
      · have hz := bit_false_of_outside cfg s hs ((n - 1).toNat / cfg._NSIG_BPW) j
          (fun h => hj h.2)
        unfold kernel_sigset_t.bit at hz
        rw [hz, Bool.false_and, Bool.false_and]
    · rw [getD_set_of_ne _ _ _ _ (Ne.symm hi), decide_eq_false (fun h => hi h.1), Bool.not_false,
        Bool.and_true]

/-! ## Branches, in-range access and order of additions -/

theorem kernel_sigaddset_eq_branches (cfg : Config) (set : kernel_sigset_t) (_sig : Int) :
    kernel_sigaddset cfg set _sig = (int_sub _sig 1).bind (fun d =>
      if cfg._NSIG_WORDS = 1 then kernel_sigaddset_single cfg set (uint_of_int d)
      else kernel_sigaddset_general cfg set (uint_of_int d)) := rfl

theorem kernel_sigdelset_eq_branches (cfg : Config) (set : kernel_sigset_t) (_sig : Int) :
    kernel_sigdelset cfg set _sig = (int_sub _sig 1).bind (fun d =>
      if cfg._NSIG_WORDS = 1 then kernel_sigdelset_single cfg set (uint_of_int d)
      else kernel_sigdelset_general cfg set (uint_of_int d)) := rfl

theorem kernel_sigismember_eq_branches (cfg : Config) (set : kernel_sigset_t) (_sig : Int) :
    kernel_sigismember cfg set _sig = (int_sub _sig 1).bind (fun d =>
      if cfg._NSIG_WORDS = 1 then kernel_sigismember_single cfg set d
      else kernel_sigismember_general cfg set d) := rfl

/-- The quotient and remainder of C on a non-negative `int` are those of the
natural numbers. -/
theorem tdiv_tmod_of_valid (cfg : Config) (n : Int) (h1 : 1 ≤ n) :
    Int.tdiv (n - 1) cfg._NSIG_BPW = (((n - 1).toNat / cfg._NSIG_BPW : Nat) : Int) ∧
      Int.tmod (n - 1) cfg._NSIG_BPW = (((n - 1).toNat % cfg._NSIG_BPW : Nat) : Int) := by
  have hp : n - 1 = ((n - 1).toNat : Int) := (Int.toNat_of_nonneg (by omega)).symm
  generalize (n - 1).toNat = p at hp
  rw [hp]
  exact ⟨rfl, rfl⟩

/-- No set of portable operations is constrained on the empty domain. -/
theorem ideal_on_empty {σ : Type} (cfg : Config) (ops : sigset_ops σ) :
    ops.ideal_on cfg (fun _ => False) :=
  ⟨fun _ _ h => h.elim, fun _ _ _ _ _ h => h.elim⟩

/-- Effect of a list of additions of valid signal numbers, bit by bit. -/
theorem kernel_sigaddset_each_bits (cfg : Config) :
    ∀ (l : List Int) (s : kernel_sigset_t), s.wf cfg →
      (∀ x ∈ l, 1 ≤ x ∧ x ≤ ((cfg._NSIG_WORDS * cfg._NSIG_BPW : Nat) : Int) ∧ x ≤ INT_MAX) →
      ∃ r, kernel_sigaddset_each cfg s l = some r ∧ r.wf cfg ∧
        ∀ i j, r.bit i j =
          (s.bit i j || decide (j < cfg._NSIG_BPW ∧ signal_of_bit cfg i j ∈ l)) := by
  intro l
  induction l with
  | nil =>
    intro s hs _
    refine ⟨s, rfl, hs, ?_⟩
    intro i j
    rw [decide_eq_false (fun h => List.not_mem_nil _ h.2), Bool.or_false]
  | cons x rest ih =>
    intro s hs hl
    obtain ⟨hx1, hx2, hx3⟩ := hl x (List.mem_cons_self _ _)
    obtain ⟨s1, hs1, hwf1, hbit1⟩ := kernel_sigaddset_bits cfg s x hs hx1 hx2 hx3
    obtain ⟨r, hr, hwf, hbit⟩ := ih s1 hwf1 (fun y hy => hl y (List.mem_cons_of_mem _ hy))
    refine ⟨r, ?_, hwf, ?_⟩
    · simp only [kernel_sigaddset_each, Option.bind_eq_bind]
      rw [hs1, Option.some_bind, hr]
    · intro i j
      rw [hbit i j, hbit1 i j, Bool.or_assoc]
      congr 1
      by_cases hj : j < cfg._NSIG_BPW
      · by_cases hx : signal_of_bit cfg i j = x
        · rw [decide_eq_true ⟨hj, hx⟩, Bool.true_or,
            decide_eq_true ⟨hj, hx ▸ List.mem_cons_self _ _⟩]
        · rw [decide_eq_false (fun h => hx h.2), Bool.false_or]
          apply decide_eq_decide.mpr
          constructor
          · exact fun h => ⟨h.1, List.mem_cons_of_mem _ h.2⟩
          · intro h
            refine ⟨h.1, ?_⟩
            rcases List.mem_cons.mp h.2 with h2 | h2
            · exact absurd h2 hx
            · exact h2
      · rw [decide_eq_false (fun h => hj h.1), decide_eq_false (fun h => hj h.1),
          decide_eq_false (fun h => hj h.1), Bool.or_false]

/-! ## The pending-signal queue -/

/-- A sum over a list without repetition grows by one when one summand does. -/
theorem sum_map_succ_at (l : List Nat) (hl : l.Nodup) (f g : Nat → Nat) (a : Nat)
    (ha : a ∈ l) (hfa : f a = g a + 1) (hother : ∀ x, x ≠ a → f x = g x) :
    (l.map f).sum = (l.map g).sum + 1 := by
  induction l with
  | nil => exact absurd ha (List.not_mem_nil a)
  | cons x xs ih =>
    obtain ⟨hx, hxs⟩ := List.nodup_cons.mp hl
    rw [List.map_cons, List.map_cons, List.sum_cons, List.sum_cons]
    by_cases hxa : x = a
    · subst hxa
      have hsame : xs.map f = xs.map g :=
        List.map_congr_left (fun y hy => hother y (fun h => hx (h ▸ hy)))
      rw [hsame, hfa]
      omega
    · have hmem : a ∈ xs := by
        rcases List.mem_cons.mp ha with h | h
        · exact absurd h.symm hxa
        · exact h
      rw [ih hxs hmem, hother x hxa]
      omega

/-- A summand of a sum of naturals over a list is at most the sum. -/
theorem le_sum_map_of_mem (l : List Nat) (f : Nat → Nat) (a : Nat) (ha : a ∈ l) :
    f a ≤ (l.map f).sum := by
  induction l with
  | nil => exact absurd ha (List.not_mem_nil a)
  | cons x xs ih =>
    rw [List.map_cons, List.sum_cons]
    rcases List.mem_cons.mp ha with h | h
    · rw [h]; omega
    · have := ih h
      omega

theorem mem_signal_range (cfg : Config) (signum : Nat) :
    signum ∈ List.range' 1 cfg.MAX_SIGNUM ↔ 1 ≤ signum ∧ signum ≤ cfg.MAX_SIGNUM := by
  rw [List.mem_range'_1]
  omega

/-- When `dequeue_oldest` has nothing to return, no signal number of
`1 .. MAX_SIGNUM` that is not blocked has a pending entry. -/
theorem dequeue_oldest_none (cfg : Config) (info : thread_sig_info_t)
    (h : dequeue_oldest cfg info = none) (signum : Nat) (h1 : 1 ≤ signum)
    (h2 : signum ≤ cfg.MAX_SIGNUM) (hb : signal_blocked cfg info signum = false) :
    info.sigpending signum = [] := by
  unfold dequeue_oldest at h
  cases hf : (List.range' 1 cfg.MAX_SIGNUM).find? (deliverable cfg info) with
  | none =>
    have hnot := List.find?_eq_none.mp hf signum ((mem_signal_range cfg signum).mpr ⟨h1, h2⟩)
    unfold deliverable at hnot
    rw [hb] at hnot
    cases hl : info.sigpending signum with
    | nil => rfl
    | cons e rest =>
      rw [hl] at hnot
      exact absurd rfl hnot
  | some sig0 =>
    rw [hf] at h
    dsimp only at h
    have hd := List.find?_some hf
    unfold deliverable at hd
    cases hl : info.sigpending sig0 with
    | nil =>
      rw [hl] at hd
      simp at hd
    | cons e rest =>
      simp only [hl] at h
      exact absurd h (by simp)

/-- What `dequeue_oldest` returns: the head of the list of a signal number of
`1 .. MAX_SIGNUM` that is not blocked, and the state with that list reduced to
its tail. -/
theorem dequeue_oldest_some (cfg : Config) (info info1 : thread_sig_info_t) (sig0 : Nat)
    (e : sigpending_t) (h : dequeue_oldest cfg info = some ((sig0, e), info1)) :
    (1 ≤ sig0 ∧ sig0 ≤ cfg.MAX_SIGNUM) ∧ signal_blocked cfg info sig0 = false ∧
      ∃ rest, info.sigpending sig0 = e :: rest ∧
        info1 = { info with sigpending := Function.update info.sigpending sig0 rest } := by
  unfold dequeue_oldest at h
  cases hf : (List.range' 1 cfg.MAX_SIGNUM).find? (deliverable cfg info) with
  | none =>
    rw [hf] at h
    exact absurd h (by simp)
  | some sig1 =>
    rw [hf] at h
    dsimp only at h
    have hd := List.find?_some hf
    have hmem := (mem_signal_range cfg sig1).mp (List.mem_of_find?_eq_some hf)
    cases hl : info.sigpending sig1 with
    | nil =>
      simp only [hl] at h
      exact absurd h (by simp)
    | cons e1 rest =>
      simp only [hl, Option.some.injEq, Prod.mk.injEq] at h
      obtain ⟨⟨hs, he⟩, hi⟩ := h
      subst hs
      subst he
      refine ⟨hmem, ?_, rest, hl, hi.symm⟩
      unfold deliverable at hd
      cases hbl : signal_blocked cfg info sig1 with
      | false => rfl
      | true =>
        rw [hbl] at hd
        simp at hd

/-- Each `dequeue_oldest` leaves one entry less to deliver. -/
theorem deliverable_count_dequeue (cfg : Config) (info info1 : thread_sig_info_t) (sig0 : Nat)
    (e : sigpending_t) (h : dequeue_oldest cfg info = some ((sig0, e), info1)) :
    deliverable_count cfg info = deliverable_count cfg info1 + 1 := by
  obtain ⟨hr, hb, rest, hl, hi⟩ := dequeue_oldest_some cfg info info1 sig0 e h
  subst hi
  unfold deliverable_count
  apply sum_map_succ_at _ (List.nodup_range' 1 cfg.MAX_SIGNUM) _ _ sig0
    ((mem_signal_range cfg sig0).mpr hr)
  · have hb1 : signal_blocked cfg
        { info with sigpending := Function.update info.sigpending sig0 rest } sig0 = false := hb
    simp only [hb, hb1, hl, Function.update_same, Bool.false_eq_true, if_false,
      List.length_cons]
  · intro x hx
    have hbx : signal_blocked cfg
        { info with sigpending := Function.update info.sigpending sig0 rest } x =
        signal_blocked cfg info x := rfl
    simp only [hbx, Function.update_noteq hx]

/-- With enough repetitions, `drain_loop` delivers the entries of a signal number
of `1 .. MAX_SIGNUM` that is not blocked in the order of its list, oldest first,
and leaves that list empty. -/
theorem drain_loop_fifo (cfg : Config) :
    ∀ (fuel : Nat) (info : thread_sig_info_t), deliverable_count cfg info ≤ fuel →
      ∀ signum : Nat, 1 ≤ signum → signum ≤ cfg.MAX_SIGNUM →
        signal_blocked cfg info signum = false →
        (((drain_loop cfg fuel info).1.filter (fun d => decide (d.1 = signum))).map Prod.snd =
            info.sigpending signum) ∧
          (drain_loop cfg fuel info).2.sigpending signum = [] := by
  intro fuel
  induction fuel with
  | zero =>
    intro info hcount signum h1 h2 hb
    have hle := le_sum_map_of_mem (List.range' 1 cfg.MAX_SIGNUM)
      (fun s => if signal_blocked cfg info s then 0 else (info.sigpending s).length) signum
      ((mem_signal_range cfg signum).mpr ⟨h1, h2⟩)
    simp only [hb, Bool.false_eq_true, if_false] at hle
    have hlen : (info.sigpending signum).length = 0 := by
      unfold deliverable_count at hcount
      omega
    have hnil := List.length_eq_zero.mp hlen
    simp only [drain_loop, List.filter_nil, List.map_nil]
    exact ⟨hnil.symm, hnil⟩
  | succ fuel ih =>
    intro info hcount signum h1 h2 hb
    cases hdq : dequeue_oldest cfg info with
    | none =>
      have hnil := dequeue_oldest_none cfg info hdq signum h1 h2 hb
      simp only [drain_loop, hdq, List.filter_nil, List.map_nil]
      exact ⟨hnil.symm, hnil⟩
    | some r =>
      obtain ⟨⟨sig0, e⟩, info1⟩ := r
      have hdec := deliverable_count_dequeue cfg info info1 sig0 e hdq
      obtain ⟨_, _, rest, hl, hi⟩ := dequeue_oldest_some cfg info info1 sig0 e hdq
      have hb1 : signal_blocked cfg info1 signum = false := by
        rw [hi]; exact hb
      obtain ⟨hfifo, hempty⟩ := ih info1 (by omega) signum h1 h2 hb1
      simp only [drain_loop, hdq]
      refine ⟨?_, hempty⟩
      by_cases hs : sig0 = signum
      · subst hs
        rw [List.filter_cons_of_pos (by simp), List.map_cons, hfifo, hl, hi]
        simp only [Function.update_same]
      · rw [List.filter_cons_of_neg (by simpa using hs), hfifo, hi]
        simp only [Function.update_noteq (Ne.symm hs)]

/-- An entry enqueued for a signal number that is of the realtime class, or
whose list is below the cap, goes to the tail of the list of that number; the
other lists and the blocked mask are unchanged. -/
theorem enqueue_of_room (pol : pending_policy) (info : thread_sig_info_t) (signum : Nat)
    (pend : sigpending_t)
    (hroom : pol.realtime signum = true ∨ (info.sigpending signum).length < pol.cap) :
    (enqueue pol info signum pend).sigpending signum = info.sigpending signum ++ [pend] ∧
      (∀ other, other ≠ signum →
        (enqueue pol info signum pend).sigpending other = info.sigpending other) ∧
      (enqueue pol info signum pend).app_sigblocked = info.app_sigblocked := by
  have hcond : (!pol.realtime signum && decide (pol.cap ≤ (info.sigpending signum).length) &&
      decide (0 < (info.sigpending signum).length)) = false := by
    rcases hroom with h | h
    · rw [h]; rfl
    · rw [decide_eq_false (by omega), Bool.and_false, Bool.false_and]
  unfold enqueue
  rw [hcond]
  simp only [Bool.false_eq_true, if_false, Function.update_same]
  exact ⟨trivial, fun other h => Function.update_noteq h _ _, trivial⟩

/-- An entry enqueued for a signal number that is not of the realtime class and
whose list, not empty, has reached the cap is dropped. -/
theorem enqueue_of_full (pol : pending_policy) (info : thread_sig_info_t) (signum : Nat)
    (pend : sigpending_t) (hrt : pol.realtime signum = false)
    (hcap : pol.cap ≤ (info.sigpending signum).length)
    (hne : 0 < (info.sigpending signum).length) :
    enqueue pol info signum pend = info := by
  unfold enqueue
  rw [hrt, decide_eq_true hcap, decide_eq_true hne]
  rfl

/-! # Properties of the specification -/

/-- C1: for every kernel mask `s` and every valid signal number `n`
(`1 ≤ n ≤ _NSIG_WORDS * _NSIG_BPW`), `kernel_sigaddset(s, n)` succeeds and
`kernel_sigismember` of `n` in the resulting mask is true, whatever the number
of words (so also at `n = _NSIG_BPW` and `n = _NSIG_BPW + 1`). -/
theorem kernel_sigaddset_then_ismember (cfg : Config) (s : kernel_sigset_t) (n : Int)
    (hs : s.wf cfg) (h1 : 1 ≤ n) (h2 : n ≤ (cfg._NSIG_WORDS * cfg._NSIG_BPW : Nat))
    (h3 : n ≤ INT_MAX) :
    ∃ s1, kernel_sigaddset cfg s n = some s1 ∧ kernel_sigismember cfg s1 n = some true := by
  obtain ⟨_, hdiv, _⟩ := position_in_range cfg n h1 h2
  refine ⟨_, kernel_sigaddset_valid cfg s n hs.1 h1 h2 h3, ?_⟩
  rw [kernel_sigismember_valid cfg _ n (by simpa using hs.1) h1 h2 h3,
    getD_set_self _ _ _ (by rw [hs.1]; exact hdiv), Nat.testBit_or,
    Nat.testBit_two_pow_self, Bool.or_true]

/-- Instance of C1 at the first signal of the second word (`n = _NSIG_BPW + 1 = 33`). -/
theorem kernel_sigaddset_then_ismember_witness :
    (kernel_sigset_t.mk [5, 0]).wf cfg32 ∧ (1 : Int) ≤ 33 ∧
      (33 : Int) ≤ (cfg32._NSIG_WORDS * cfg32._NSIG_BPW : Nat) ∧ (33 : Int) ≤ INT_MAX ∧
      ∃ s1, kernel_sigaddset cfg32 ⟨[5, 0]⟩ 33 = some s1 ∧
        kernel_sigismember cfg32 s1 33 = some true :=
  ⟨by decide, by decide, by decide, by decide,
    kernel_sigaddset_then_ismember cfg32 ⟨[5, 0]⟩ 33 (by decide) (by decide) (by decide)
      (by decide)⟩

/-- C2: for every kernel mask `s` and every valid signal number `n`
(`1 ≤ n ≤ _NSIG_WORDS * _NSIG_BPW`), `kernel_sigdelset(s, n)` succeeds and
`kernel_sigismember` of `n` in the resulting mask is false, whatever the number
of words (so also at `n = _NSIG_BPW` and `n = _NSIG_BPW + 1`). -/
theorem kernel_sigdelset_then_ismember (cfg : Config) (s : kernel_sigset_t) (n : Int)
    (hs : s.wf cfg) (h1 : 1 ≤ n) (h2 : n ≤ (cfg._NSIG_WORDS * cfg._NSIG_BPW : Nat))
    (h3 : n ≤ INT_MAX) :
    ∃ s1, kernel_sigdelset cfg s n = some s1 ∧ kernel_sigismember cfg s1 n = some false := by
  obtain ⟨_, hdiv, hmod⟩ := position_in_range cfg n h1 h2
  refine ⟨_, kernel_sigdelset_valid cfg s n hs.1 h1 h2 h3, ?_⟩
  rw [kernel_sigismember_valid cfg _ n (by simpa using hs.1) h1 h2 h3,
    getD_set_self _ _ _ (by rw [hs.1]; exact hdiv), Nat.testBit_and,
    testBit_ulong_not_two_pow cfg _ _ hmod]
  simp

/-- Instance of C2 at the last signal of the first word (`n = _NSIG_BPW = 32`). -/
theorem kernel_sigdelset_then_ismember_witness :
    (kernel_sigset_t.mk [4294967295, 1]).wf cfg32 ∧ (1 : Int) ≤ 32 ∧
      (32 : Int) ≤ (cfg32._NSIG_WORDS * cfg32._NSIG_BPW : Nat) ∧ (32 : Int) ≤ INT_MAX ∧
      ∃ s1, kernel_sigdelset cfg32 ⟨[4294967295, 1]⟩ 32 = some s1 ∧
        kernel_sigismember cfg32 s1 32 = some false :=
  ⟨by decide, by decide, by decide, by decide,
    kernel_sigdelset_then_ismember cfg32 ⟨[4294967295, 1]⟩ 32 (by decide) (by decide)
      (by decide) (by decide)⟩

/-- C3: for every kernel mask `s` and every valid signal number `n`,
`kernel_sigismember(s, n)` is the bit `(n - 1) mod _NSIG_BPW` of the word
`(n - 1) div _NSIG_BPW` of `s`; signal `_NSIG_BPW` is the top bit of word 0 and
signal `_NSIG_BPW + 1` is bit 0 of word 1. -/
theorem kernel_sigismember_bit_layout (cfg : Config) (s : kernel_sigset_t) (n : Int)
    (hs : s.wf cfg) (h1 : 1 ≤ n) (h2 : n ≤ (cfg._NSIG_WORDS * cfg._NSIG_BPW : Nat))
    (h3 : n ≤ INT_MAX) :
    kernel_sigismember cfg s n =
        some ((s.sig.getD ((n - 1).toNat / cfg._NSIG_BPW) 0).testBit
          ((n - 1).toNat % cfg._NSIG_BPW)) ∧
      (n = (cfg._NSIG_BPW : Int) →
        kernel_sigismember cfg s n = some ((s.sig.getD 0 0).testBit (cfg._NSIG_BPW - 1))) ∧
      (n = (cfg._NSIG_BPW : Int) + 1 →
        kernel_sigismember cfg s n = some ((s.sig.getD 1 0).testBit 0)) := by
  obtain ⟨hpos, _, _⟩ := position_in_range cfg n h1 h2
  have hgen := kernel_sigismember_valid cfg s n hs.1 h1 h2 h3
  refine ⟨hgen, ?_, ?_⟩
  · intro hn
    have hp : (n - 1).toNat = cfg._NSIG_BPW - 1 := by omega
    rw [hgen, hp, Nat.div_eq_of_lt (by omega), Nat.mod_eq_of_lt (by omega)]
  · intro hn
    have hp : (n - 1).toNat = cfg._NSIG_BPW := by omega
    rw [hgen, hp, Nat.div_self hpos, Nat.mod_self]

/-- Instance of C3 at `n = _NSIG_BPW + 1 = 33` with two words of 32 bits. -/
theorem kernel_sigismember_bit_layout_witness :
    (kernel_sigset_t.mk [0, 1]).wf cfg32 ∧ (1 : Int) ≤ 33 ∧
      (33 : Int) ≤ (cfg32._NSIG_WORDS * cfg32._NSIG_BPW : Nat) ∧ (33 : Int) ≤ INT_MAX ∧
      kernel_sigismember cfg32 ⟨[0, 1]⟩ 33 = some true :=
  ⟨by decide, by decide, by decide, by decide,
    (kernel_sigismember_bit_layout cfg32 ⟨[0, 1]⟩ 33 (by decide) (by decide) (by decide)
      (by decide)).1⟩

/-- C4: when the portable operations are an ideal set on `1 .. MAX_SIGNUM`, for
every kernel mask `k`, every prior content `u1`, `u2` of the portable set and
every `n` of `1 .. MAX_SIGNUM`, `copy_kernel_sigset_to_sigset` returns, `n` is a
member of the result exactly when `kernel_sigismember(k, n)`, and the membership
is the same whatever the portable set held before. -/
theorem copy_kernel_sigset_to_sigset_membership {σ : Type} (cfg : Config)
    (ops : sigset_ops σ) (k : kernel_sigset_t) (u1 u2 : σ) (n : Int)
    (hops : ops.ideal cfg) (hk : k.wf cfg) (hcfg : cfg.loops_in_range)
    (h1 : 1 ≤ n) (h2 : n ≤ (cfg.MAX_SIGNUM : Int)) :
    ∃ r1 r2, copy_kernel_sigset_to_sigset cfg ops k u1 = some r1 ∧
      copy_kernel_sigset_to_sigset cfg ops k u2 = some r2 ∧
      kernel_sigismember cfg k n = some (ops.member r1 n) ∧
      ops.member r2 n = ops.member r1 n := by
  obtain ⟨r1, hr1, hm1⟩ := copy_kernel_sigset_to_sigset_spec cfg ops _ hops k hk.1 hcfg u1
  obtain ⟨r2, hr2, hm2⟩ := copy_kernel_sigset_to_sigset_spec cfg ops _ hops k hk.1 hcfg u2
  have hv := kernel_sigismember_valid cfg k n hk.1 h1
    (le_trans h2 (Int.ofNat_le.mpr hcfg.1)) (le_of_lt (lt_of_le_of_lt h2 hcfg.2))
  refine ⟨r1, r2, hr1, hr2, ?_, ?_⟩
  · rw [hm1 n ⟨h1, h2⟩, decide_eq_true (show 1 ≤ n ∧ n ≤ (cfg.MAX_SIGNUM : Int) from ⟨h1, h2⟩),
      hv]
    simp
  · rw [hm1 n ⟨h1, h2⟩, hm2 n ⟨h1, h2⟩]

/-- Instance of C4: two words of 32 bits, the mask with signals 1, 3 and 33,
read at signal 33 from two different prior contents. -/
theorem copy_kernel_sigset_to_sigset_membership_witness :
    list_sigset_ops.ideal cfg32 ∧ (kernel_sigset_t.mk [5, 1]).wf cfg32 ∧
      cfg32.loops_in_range ∧ (1 : Int) ≤ 33 ∧ (33 : Int) ≤ (cfg32.MAX_SIGNUM : Int) ∧
      ∃ r1 r2, copy_kernel_sigset_to_sigset cfg32 list_sigset_ops ⟨[5, 1]⟩ [7] = some r1 ∧
        copy_kernel_sigset_to_sigset cfg32 list_sigset_ops ⟨[5, 1]⟩ [] = some r2 ∧
        kernel_sigismember cfg32 ⟨[5, 1]⟩ 33 = some (list_sigset_ops.member r1 33) ∧
        list_sigset_ops.member r2 33 = list_sigset_ops.member r1 33 :=
  ⟨ideal_of_ideal_everywhere cfg32 _ (list_sigset_ops_ideal_everywhere cfg32), by decide,
    by decide, by decide, by decide,
    copy_kernel_sigset_to_sigset_membership cfg32 list_sigset_ops ⟨[5, 1]⟩ [7] [] 33
      (ideal_of_ideal_everywhere cfg32 _ (list_sigset_ops_ideal_everywhere cfg32))
      (by decide) (by decide) (by decide) (by decide)⟩

/-- C5: for every portable set `u` and every prior content `k1`, `k2` of the
kernel mask, `copy_sigset_to_kernel_sigset` returns the same well-shaped mask
from both; in it `kernel_sigismember` of every `n` of `1 .. MAX_SIGNUM` is the
membership of `n` in `u`, and every bit that is not the bit of a signal of
`1 .. MAX_SIGNUM` is zero. -/
theorem copy_sigset_to_kernel_sigset_membership {σ : Type} (cfg : Config)
    (ops : sigset_ops σ) (u : σ) (k1 k2 : kernel_sigset_t) (hcfg : cfg.loops_in_range) :
    ∃ r, copy_sigset_to_kernel_sigset cfg ops u k1 = some r ∧
      copy_sigset_to_kernel_sigset cfg ops u k2 = some r ∧ r.wf cfg ∧
      (∀ n : Int, 1 ≤ n → n ≤ (cfg.MAX_SIGNUM : Int) →
        kernel_sigismember cfg r n = some (ops.member u n)) ∧
      (∀ i j, ¬(i < cfg._NSIG_WORDS ∧ j < cfg._NSIG_BPW ∧
          signal_of_bit cfg i j ≤ (cfg.MAX_SIGNUM : Int)) → r.bit i j = false) := by
  obtain ⟨r, hr, hwf, hbit⟩ := copy_sigset_to_kernel_sigset_spec cfg ops u hcfg k1
  refine ⟨r, hr, hr, hwf, ?_, ?_⟩
  · intro n h1 h2
    exact copy_sigset_to_kernel_sigset_ismember cfg ops u hcfg r hwf hbit n h1 h2
  · intro i j hout
    by_cases hin : i < cfg._NSIG_WORDS ∧ j < cfg._NSIG_BPW
    · rw [hbit i j, decide_eq_false (fun h => hout ⟨hin.1, h.1, h.2⟩), Bool.false_and]
    · exact bit_false_of_outside cfg r hwf i j hin

/-- Instance of C5: two words of 32 bits, the portable set with the signals 1,
3, 33 and 64, written over two different prior masks. -/
theorem copy_sigset_to_kernel_sigset_membership_witness :
    cfg32.loops_in_range ∧
      copy_sigset_to_kernel_sigset cfg32 list_sigset_ops [1, 3, 33, 64] ⟨[5, 1]⟩ =
        some ⟨[5, 2147483649]⟩ ∧
      ∃ r, copy_sigset_to_kernel_sigset cfg32 list_sigset_ops [1, 3, 33, 64] ⟨[5, 1]⟩ = some r ∧
        copy_sigset_to_kernel_sigset cfg32 list_sigset_ops [1, 3, 33, 64] ⟨[4294967295, 7]⟩ =
          some r ∧ r.wf cfg32 ∧
        (∀ n : Int, 1 ≤ n → n ≤ (cfg32.MAX_SIGNUM : Int) →
          kernel_sigismember cfg32 r n = some (list_sigset_ops.member [1, 3, 33, 64] n)) ∧
        (∀ i j, ¬(i < cfg32._NSIG_WORDS ∧ j < cfg32._NSIG_BPW ∧
            signal_of_bit cfg32 i j ≤ (cfg32.MAX_SIGNUM : Int)) → r.bit i j = false) :=
  ⟨by decide, by decide,
    copy_sigset_to_kernel_sigset_membership cfg32 list_sigset_ops [1, 3, 33, 64] ⟨[5, 1]⟩
      ⟨[4294967295, 7]⟩ (by decide)⟩

/-- C6: when the portable operations are an ideal set on `1 .. MAX_SIGNUM`,
converting a kernel mask `k` with `copy_kernel_sigset_to_sigset` and back with
`copy_sigset_to_kernel_sigset` returns a mask with the same
`kernel_sigismember` as `k` on `1 .. MAX_SIGNUM`; it is `k` itself when `k` has
no bit beyond signal `MAX_SIGNUM`, which always holds when
`MAX_SIGNUM = _NSIG_WORDS * _NSIG_BPW`. -/
theorem roundtrip_kernel_sigset {σ : Type} (cfg : Config) (ops : sigset_ops σ)
    (k k0 : kernel_sigset_t) (u0 : σ)
    (hops : ops.ideal cfg) (hk : k.wf cfg) (hcfg : cfg.loops_in_range) :
    ∃ u r, copy_kernel_sigset_to_sigset cfg ops k u0 = some u ∧
      copy_sigset_to_kernel_sigset cfg ops u k0 = some r ∧
      (∀ n : Int, 1 ≤ n → n ≤ (cfg.MAX_SIGNUM : Int) →
        kernel_sigismember cfg r n = kernel_sigismember cfg k n) ∧
      ((∀ i j, i < cfg._NSIG_WORDS → j < cfg._NSIG_BPW →
          (cfg.MAX_SIGNUM : Int) < signal_of_bit cfg i j → k.bit i j = false) → r = k) ∧
      (cfg.MAX_SIGNUM = cfg._NSIG_WORDS * cfg._NSIG_BPW → r = k) := by
  obtain ⟨u, hu, hmem⟩ := copy_kernel_sigset_to_sigset_spec cfg ops _ hops k hk.1 hcfg u0
  obtain ⟨r, hr, hwf, hbit⟩ := copy_sigset_to_kernel_sigset_spec cfg ops u hcfg k0
  have hsame : ∀ n : Int, 1 ≤ n → n ≤ (cfg.MAX_SIGNUM : Int) →
      kernel_sigismember cfg r n = kernel_sigismember cfg k n := by
    intro n h1 h2
    have hv := kernel_sigismember_valid cfg k n hk.1 h1
      (le_trans h2 (Int.ofNat_le.mpr hcfg.1)) (le_of_lt (lt_of_le_of_lt h2 hcfg.2))
    rw [copy_sigset_to_kernel_sigset_ismember cfg ops u hcfg r hwf hbit n h1 h2,
      hmem n ⟨h1, h2⟩, decide_eq_true (show 1 ≤ n ∧ n ≤ (cfg.MAX_SIGNUM : Int) from ⟨h1, h2⟩),
      hv]
    simp
  have heq : (∀ i j, i < cfg._NSIG_WORDS → j < cfg._NSIG_BPW →
      (cfg.MAX_SIGNUM : Int) < signal_of_bit cfg i j → k.bit i j = false) → r = k := by
    intro hbeyond
    apply kernel_sigset_t_ext r k (by rw [hwf.1, hk.1])
    intro i j
    by_cases hin : i < cfg._NSIG_WORDS ∧ j < cfg._NSIG_BPW
    · by_cases hs : signal_of_bit cfg i j ≤ (cfg.MAX_SIGNUM : Int)
      · have hs1 : 1 ≤ signal_of_bit cfg i j := by unfold signal_of_bit; omega
        have hpos : 0 < cfg._NSIG_BPW := by omega
        obtain ⟨hi, hj⟩ := (position_iff_signal_of_bit cfg _ hs1 i j hpos).mpr ⟨hin.2, rfl⟩
        have h1 := copy_sigset_to_kernel_sigset_ismember cfg ops u hcfg r hwf hbit _ hs1 hs
        have h2 := kernel_sigismember_valid cfg r _ hwf.1 hs1
          (le_trans hs (Int.ofNat_le.mpr hcfg.1)) (le_of_lt (lt_of_le_of_lt hs hcfg.2))
        have h3 := kernel_sigismember_valid cfg k _ hk.1 hs1
          (le_trans hs (Int.ofNat_le.mpr hcfg.1)) (le_of_lt (lt_of_le_of_lt hs hcfg.2))
        have h4 := hsame _ hs1 hs
        rw [h2, h3, ← hi, hj] at h4
        exact Option.some.inj h4
      · rw [hbeyond i j hin.1 hin.2 (by omega), hbit i j,
          decide_eq_false (fun h => hs h.2), Bool.false_and]
    · rw [bit_false_of_outside cfg r hwf i j hin, bit_false_of_outside cfg k hk i j hin]
  refine ⟨u, r, hu, hr, hsame, heq, ?_⟩
  intro hfull
  apply heq
  intro i j hi hj hs
  exfalso
  have h1 : i * cfg._NSIG_BPW + cfg._NSIG_BPW ≤ cfg._NSIG_WORDS * cfg._NSIG_BPW := by
    have := Nat.mul_le_mul_right cfg._NSIG_BPW (Nat.succ_le_of_lt hi)
    rwa [Nat.succ_mul] at this
  unfold signal_of_bit at hs
  omega

/-- Instance of C6: two words of 32 bits and 64 signals, the mask with the bits
of signals 1, 3, 32, 33 and 64. -/
theorem roundtrip_kernel_sigset_witness :
    list_sigset_ops.ideal cfg32 ∧ (kernel_sigset_t.mk [2147483653, 2147483649]).wf cfg32 ∧
      cfg32.loops_in_range ∧
      ∃ u r, copy_kernel_sigset_to_sigset cfg32 list_sigset_ops ⟨[2147483653, 2147483649]⟩ [9]
          = some u ∧
        copy_sigset_to_kernel_sigset cfg32 list_sigset_ops u ⟨[0, 7]⟩ = some r ∧
        (∀ n : Int, 1 ≤ n → n ≤ (cfg32.MAX_SIGNUM : Int) →
          kernel_sigismember cfg32 r n =
            kernel_sigismember cfg32 ⟨[2147483653, 2147483649]⟩ n) ∧
        ((∀ i j, i < cfg32._NSIG_WORDS → j < cfg32._NSIG_BPW →
            (cfg32.MAX_SIGNUM : Int) < signal_of_bit cfg32 i j →
            (kernel_sigset_t.mk [2147483653, 2147483649]).bit i j = false) →
          r = ⟨[2147483653, 2147483649]⟩) ∧
        (cfg32.MAX_SIGNUM = cfg32._NSIG_WORDS * cfg32._NSIG_BPW →
          r = ⟨[2147483653, 2147483649]⟩) :=
  ⟨ideal_of_ideal_everywhere cfg32 _ (list_sigset_ops_ideal_everywhere cfg32), by decide,
    by decide,
    roundtrip_kernel_sigset cfg32 list_sigset_ops ⟨[2147483653, 2147483649]⟩ ⟨[0, 7]⟩ [9]
      (ideal_of_ideal_everywhere cfg32 _ (list_sigset_ops_ideal_everywhere cfg32))
      (by decide) (by decide)⟩

/-- C7: when the portable operations are an ideal set, converting a portable
set `u` with `copy_sigset_to_kernel_sigset` and back with
`copy_kernel_sigset_to_sigset` returns a set with the same members as `u` among
`1 .. MAX_SIGNUM` and no member outside `1 .. MAX_SIGNUM`. -/
theorem roundtrip_sigset {σ : Type} (cfg : Config) (ops : sigset_ops σ)
    (u u0 : σ) (k0 : kernel_sigset_t)
    (hops : ops.ideal_everywhere cfg) (hcfg : cfg.loops_in_range) :
    ∃ k r, copy_sigset_to_kernel_sigset cfg ops u k0 = some k ∧
      copy_kernel_sigset_to_sigset cfg ops k u0 = some r ∧
      (∀ n : Int, 1 ≤ n → n ≤ (cfg.MAX_SIGNUM : Int) → ops.member r n = ops.member u n) ∧
      (∀ n : Int, ¬(1 ≤ n ∧ n ≤ (cfg.MAX_SIGNUM : Int)) → ops.member r n = false) := by
  obtain ⟨k, hk, hwf, hbit⟩ := copy_sigset_to_kernel_sigset_spec cfg ops u hcfg k0
  obtain ⟨r, hr, hmem⟩ := copy_kernel_sigset_to_sigset_spec cfg ops _ hops k hwf.1 hcfg u0
  refine ⟨k, r, hk, hr, ?_, ?_⟩
  · intro n h1 h2
    rw [hmem n trivial,
      decide_eq_true (show 1 ≤ n ∧ n ≤ (cfg.MAX_SIGNUM : Int) from ⟨h1, h2⟩),
      copy_sigset_to_kernel_sigset_ismember cfg ops u hcfg k hwf hbit n h1 h2]
    simp
  · intro n hn
    rw [hmem n trivial, decide_eq_false hn, Bool.false_and]

/-- Instance of C7: two words of 32 bits and 64 signals, the portable set with
the signals 2, 32, 33 and 64. -/
theorem roundtrip_sigset_witness :
    list_sigset_ops.ideal_everywhere cfg32 ∧ cfg32.loops_in_range ∧
      ∃ k r, copy_sigset_to_kernel_sigset cfg32 list_sigset_ops [2, 32, 33, 64] ⟨[1, 1]⟩ =
          some k ∧
        copy_kernel_sigset_to_sigset cfg32 list_sigset_ops k [5] = some r ∧
        (∀ n : Int, 1 ≤ n → n ≤ (cfg32.MAX_SIGNUM : Int) →
          list_sigset_ops.member r n = list_sigset_ops.member [2, 32, 33, 64] n) ∧
        (∀ n : Int, ¬(1 ≤ n ∧ n ≤ (cfg32.MAX_SIGNUM : Int)) →
          list_sigset_ops.member r n = false) :=
  ⟨list_sigset_ops_ideal_everywhere cfg32, by decide,
    roundtrip_sigset cfg32 list_sigset_ops [2, 32, 33, 64] [5] ⟨[1, 1]⟩
      (list_sigset_ops_ideal_everywhere cfg32) (by decide)⟩

/-- C8: whatever the kernel mask `s` held, after `kernel_sigemptyset(s)` every
word is zero and `kernel_sigismember` is false for every valid signal number
`n` (`1 ≤ n ≤ _NSIG_WORDS * _NSIG_BPW`). -/
theorem kernel_sigemptyset_empty (cfg : Config) (s : kernel_sigset_t) (n : Int)
    (h1 : 1 ≤ n) (h2 : n ≤ (cfg._NSIG_WORDS * cfg._NSIG_BPW : Nat)) (h3 : n ≤ INT_MAX) :
    (kernel_sigemptyset cfg s).sig = List.replicate cfg._NSIG_WORDS 0 ∧
      kernel_sigismember cfg (kernel_sigemptyset cfg s) n = some false := by
  refine ⟨kernel_sigemptyset_sig cfg s, ?_⟩
  have hwf := kernel_sigemptyset_wf cfg s
  have hb := kernel_sigemptyset_bit cfg s ((n - 1).toNat / cfg._NSIG_BPW)
    ((n - 1).toNat % cfg._NSIG_BPW)
  unfold kernel_sigset_t.bit at hb
  rw [kernel_sigismember_valid cfg _ n hwf.1 h1 h2 h3, hb]

/-- Instance of C8 at the last signal (`n = 64`) with two words of 32 bits. -/
theorem kernel_sigemptyset_empty_witness :
    (1 : Int) ≤ 64 ∧ (64 : Int) ≤ (cfg32._NSIG_WORDS * cfg32._NSIG_BPW : Nat) ∧
      (64 : Int) ≤ INT_MAX ∧
      (kernel_sigemptyset cfg32 ⟨[4294967295, 7]⟩).sig = List.replicate cfg32._NSIG_WORDS 0 ∧
      kernel_sigismember cfg32 (kernel_sigemptyset cfg32 ⟨[4294967295, 7]⟩) 64 = some false :=
  ⟨by decide, by decide, by decide,
    kernel_sigemptyset_empty cfg32 ⟨[4294967295, 7]⟩ 64 (by decide) (by decide) (by decide)⟩

/-- C9: whatever the kernel mask `s` held, after `kernel_sigfillset(s)` every
bit of every word (of `_NSIG_BPW` bits, a whole number of bytes) is one and
`kernel_sigismember` is true for every valid signal number `n`
(`1 ≤ n ≤ _NSIG_WORDS * _NSIG_BPW`). -/
theorem kernel_sigfillset_full (cfg : Config) (s : kernel_sigset_t) (n : Int)
    (h8 : 8 ∣ cfg._NSIG_BPW)
    (h1 : 1 ≤ n) (h2 : n ≤ (cfg._NSIG_WORDS * cfg._NSIG_BPW : Nat)) (h3 : n ≤ INT_MAX) :
    (kernel_sigfillset cfg s).sig = List.replicate cfg._NSIG_WORDS (2 ^ cfg._NSIG_BPW - 1) ∧
      (∀ i j, i < cfg._NSIG_WORDS → j < cfg._NSIG_BPW →
        (kernel_sigfillset cfg s).bit i j = true) ∧
      kernel_sigismember cfg (kernel_sigfillset cfg s) n = some true := by
  have hsig := kernel_sigfillset_sig cfg s h8
  have hbits : ∀ i j, i < cfg._NSIG_WORDS → j < cfg._NSIG_BPW →
      (kernel_sigfillset cfg s).bit i j = true := by
    intro i j hi hj
    unfold kernel_sigset_t.bit
    rw [hsig, getD_replicate_of_lt _ _ _ hi, Nat.testBit_two_pow_sub_one, decide_eq_true hj]
  obtain ⟨_, hdiv, hmod⟩ := position_in_range cfg n h1 h2
  refine ⟨hsig, hbits, ?_⟩
  have hb := hbits _ _ hdiv hmod
  unfold kernel_sigset_t.bit at hb
  rw [kernel_sigismember_valid cfg _ n (by rw [hsig]; simp) h1 h2 h3, hb]

/-- Instance of C9 at the first signal of the second word (`n = 33`) with two
words of 32 bits. -/
theorem kernel_sigfillset_full_witness :
    8 ∣ cfg32._NSIG_BPW ∧ (1 : Int) ≤ 33 ∧
      (33 : Int) ≤ (cfg32._NSIG_WORDS * cfg32._NSIG_BPW : Nat) ∧ (33 : Int) ≤ INT_MAX ∧
      (kernel_sigfillset cfg32 ⟨[0, 7]⟩).sig =
        List.replicate cfg32._NSIG_WORDS (2 ^ cfg32._NSIG_BPW - 1) ∧
      (∀ i j, i < cfg32._NSIG_WORDS → j < cfg32._NSIG_BPW →
        (kernel_sigfillset cfg32 ⟨[0, 7]⟩).bit i j = true) ∧
      kernel_sigismember cfg32 (kernel_sigfillset cfg32 ⟨[0, 7]⟩) 33 = some true :=
  ⟨by decide, by decide, by decide, by decide,
    kernel_sigfillset_full cfg32 ⟨[0, 7]⟩ 33 (by decide) (by decide) (by decide) (by decide)⟩

/-- C10: `XSTATE_ALIGNMENT` is 64 when `YMM_ENABLED()` is true and 16 otherwise,
and takes no other value. -/
theorem XSTATE_ALIGNMENT_values :
    XSTATE_ALIGNMENT true = 64 ∧ XSTATE_ALIGNMENT false = 16 ∧
      ∀ ymm_enabled : Bool,
        XSTATE_ALIGNMENT ymm_enabled = 64 ∨ XSTATE_ALIGNMENT ymm_enabled = 16 := by
  refine ⟨rfl, rfl, ?_⟩
  intro b
  cases b
  · exact Or.inr rfl
  · exact Or.inl rfl

/-- C11: the alignment of `sigpending_t.xstate` is `AVX_ALIGNMENT = 64` whatever
`YMM_ENABLED()` is; it is a multiple of, and not smaller than,
`XSTATE_ALIGNMENT` for both values of `YMM_ENABLED()`, so every address aligned
for the pending storage is aligned for `XSTATE_ALIGNMENT`. -/
theorem sigpending_xstate_alignment_worst_case :
    sigpending_t_xstate_alignment = AVX_ALIGNMENT ∧ sigpending_t_xstate_alignment = 64 ∧
      ∀ ymm_enabled : Bool,
        XSTATE_ALIGNMENT ymm_enabled ∣ sigpending_t_xstate_alignment ∧
        XSTATE_ALIGNMENT ymm_enabled ≤ sigpending_t_xstate_alignment ∧
        ∀ addr : Nat, sigpending_t_xstate_alignment ∣ addr →
          XSTATE_ALIGNMENT ymm_enabled ∣ addr := by
  refine ⟨rfl, rfl, ?_⟩
  intro b
  have hdvd : XSTATE_ALIGNMENT b ∣ sigpending_t_xstate_alignment := by
    cases b
    · exact ⟨4, rfl⟩
    · exact ⟨1, rfl⟩
  refine ⟨hdvd, ?_, fun addr h => Nat.dvd_trans hdvd h⟩
  cases b <;> decide

/-- C12, as amended: for every thread state and every signal number of
`1 .. MAX_SIGNUM` that is of the realtime class or has room for three more
entries under the retention cap, enqueuing `A`, `B`, `C` for that number puts
them in that order at the tail of its list, and draining with the number
unblocked delivers the entries of that number in the order of the list, the
older ones and then `A`, `B`, `C`, leaving the list empty; an entry enqueued for
a number that is not of the realtime class and whose list has reached the cap is
dropped. -/
theorem pending_fifo_within_signal (cfg : Config) (pol : pending_policy)
    (info : thread_sig_info_t) (signum : Nat) (A B C : sigpending_t)
    (h1 : 1 ≤ signum) (h2 : signum ≤ cfg.MAX_SIGNUM)
    (hunb : kernel_sigismember cfg info.app_sigblocked (signum : Int) = some false)
    (hroom : pol.realtime signum = true ∨ (info.sigpending signum).length + 3 ≤ pol.cap) :
    (enqueue pol (enqueue pol (enqueue pol info signum A) signum B) signum C).sigpending signum =
        info.sigpending signum ++ [A, B, C] ∧
      (((drain cfg (enqueue pol (enqueue pol (enqueue pol info signum A) signum B)
          signum C)).1.filter (fun d => decide (d.1 = signum))).map Prod.snd =
        info.sigpending signum ++ [A, B, C]) ∧
      (drain cfg (enqueue pol (enqueue pol (enqueue pol info signum A) signum B)
          signum C)).2.sigpending signum = [] ∧
      (∀ (full : thread_sig_info_t) (D : sigpending_t), pol.realtime signum = false →
        pol.cap ≤ (full.sigpending signum).length → 0 < (full.sigpending signum).length →
        enqueue pol full signum D = full) := by
  obtain ⟨hl1, _, hm1⟩ := enqueue_of_room pol info signum A
    (by rcases hroom with h | h
        · exact Or.inl h
        · exact Or.inr (by omega))
  obtain ⟨hl2, _, hm2⟩ := enqueue_of_room pol (enqueue pol info signum A) signum B
    (by rcases hroom with h | h
        · exact Or.inl h
        · exact Or.inr (by rw [hl1, List.length_append, List.length_singleton]; omega))
  obtain ⟨hl3, _, hm3⟩ := enqueue_of_room pol
    (enqueue pol (enqueue pol info signum A) signum B) signum C
    (by rcases hroom with h | h
        · exact Or.inl h
        · exact Or.inr (by
            rw [hl2, hl1, List.length_append, List.length_append, List.length_singleton,
              List.length_singleton]
            omega))
  have hlist : (enqueue pol (enqueue pol (enqueue pol info signum A) signum B)
      signum C).sigpending signum = info.sigpending signum ++ [A, B, C] := by
    rw [hl3, hl2, hl1, List.append_assoc, List.append_assoc]
    rfl
  have hb : signal_blocked cfg
      (enqueue pol (enqueue pol (enqueue pol info signum A) signum B) signum C) signum =
      false := by
    unfold signal_blocked
    rw [hm3, hm2, hm1, hunb]
    rfl
  obtain ⟨hfifo, hempty⟩ := drain_loop_fifo cfg _ _ (le_refl _) signum h1 h2 hb
  refine ⟨hlist, ?_, hempty, ?_⟩
  · rw [← hlist]
    exact hfifo
  · intro full D hrt hcap hne
    exact enqueue_of_full pol full signum D hrt hcap hne

/-- Instance of the amended C12: signal 7 has an empty list and a cap of three,
while signal 5 already has an entry pending. -/
theorem pending_fifo_within_signal_witness :
    1 ≤ 7 ∧ 7 ≤ cfg64.MAX_SIGNUM ∧
      kernel_sigismember cfg64 info_one_pending.app_sigblocked ((7 : Nat) : Int) = some false ∧
      (policy3.realtime 7 = true ∨ (info_one_pending.sigpending 7).length + 3 ≤ policy3.cap) ∧
      (drain cfg64 (enqueue policy3 (enqueue policy3 (enqueue policy3 info_one_pending 7
          pending_A) 7 pending_B) 7 pending_C)).1 =
        [(5, ⟨100, 0, false, true⟩), (7, pending_A), (7, pending_B), (7, pending_C)] ∧
      (((drain cfg64 (enqueue policy3 (enqueue policy3 (enqueue policy3 info_one_pending 7
          pending_A) 7 pending_B) 7 pending_C)).1.filter (fun d => decide (d.1 = 7))).map
          Prod.snd =
        info_one_pending.sigpending 7 ++ [pending_A, pending_B, pending_C]) :=
  ⟨by decide, by decide, by decide, by decide, by decide,
    (pending_fifo_within_signal cfg64 policy3 info_one_pending 7 pending_A pending_B pending_C
      (by decide) (by decide) (by decide) (by decide)).2.1⟩

/-- C12 as stated fails: with a cap of three entries and one entry already
pending for signal 5 (not blocked, not of the realtime class), enqueuing `A`,
`B`, `C` for signal 5 and draining delivers the older entry, `A` and `B`; `C`
is dropped at `enqueue` and never delivered. -/
theorem pending_fifo_counterexample :
    (1 ≤ 5 ∧ 5 ≤ cfg64.MAX_SIGNUM) ∧
      kernel_sigismember cfg64 info_one_pending.app_sigblocked ((5 : Nat) : Int) = some false ∧
      (drain cfg64 (enqueue policy3 (enqueue policy3 (enqueue policy3 info_one_pending 5
          pending_A) 5 pending_B) 5 pending_C)).1 =
        [(5, ⟨100, 0, false, true⟩), (5, pending_A), (5, pending_B)] ∧
      (5, pending_C) ∉ (drain cfg64 (enqueue policy3 (enqueue policy3 (enqueue policy3
          info_one_pending 5 pending_A) 5 pending_B) 5 pending_C)).1 ∧
      (drain cfg64 (enqueue policy3 (enqueue policy3 (enqueue policy3 info_one_pending 5
          pending_A) 5 pending_B) 5 pending_C)).2.sigpending 5 = [] := by
  refine ⟨by decide, by decide, by decide, by decide, by decide⟩

/-- C13: for every kernel mask `s` and all valid signal numbers `n` and `m` with
`m ≠ n`, `kernel_sigaddset(s, n)` returns a mask of the same shape in which
`kernel_sigismember` of `m` is as before and every bit other than the bit of
`n` is unchanged; `m` and `n` never share a bit. -/
theorem kernel_sigaddset_frame (cfg : Config) (s : kernel_sigset_t) (n m : Int)
    (hs : s.wf cfg) (hn1 : 1 ≤ n) (hn2 : n ≤ (cfg._NSIG_WORDS * cfg._NSIG_BPW : Nat))
    (hn3 : n ≤ INT_MAX) (hm1 : 1 ≤ m) (hm2 : m ≤ (cfg._NSIG_WORDS * cfg._NSIG_BPW : Nat))
    (hm3 : m ≤ INT_MAX) (hne : m ≠ n) :
    ∃ s1, kernel_sigaddset cfg s n = some s1 ∧ s1.sig.length = s.sig.length ∧
      kernel_sigismember cfg s1 m = kernel_sigismember cfg s m ∧
      (∀ i j, ¬(i = (n - 1).toNat / cfg._NSIG_BPW ∧ j = (n - 1).toNat % cfg._NSIG_BPW) →
        s1.bit i j = s.bit i j) ∧
      ¬((m - 1).toNat / cfg._NSIG_BPW = (n - 1).toNat / cfg._NSIG_BPW ∧
        (m - 1).toNat % cfg._NSIG_BPW = (n - 1).toNat % cfg._NSIG_BPW) := by
  obtain ⟨s1, hs1, hwf1, hbit⟩ := kernel_sigaddset_other_bits cfg s n hs hn1 hn2 hn3
  have hinj : ¬((m - 1).toNat / cfg._NSIG_BPW = (n - 1).toNat / cfg._NSIG_BPW ∧
      (m - 1).toNat % cfg._NSIG_BPW = (n - 1).toNat % cfg._NSIG_BPW) :=
    fun h => hne (position_injective cfg n m hn1 hm1 h.1 h.2)
  refine ⟨s1, hs1, by rw [hwf1.1, hs.1], ?_, hbit, hinj⟩
  have hb := hbit _ _ hinj
  unfold kernel_sigset_t.bit at hb
  rw [kernel_sigismember_valid cfg s1 m hwf1.1 hm1 hm2 hm3,
    kernel_sigismember_valid cfg s m hs.1 hm1 hm2 hm3, hb]

/-- Instance of C13 across the word boundary: adding signal 33 to a mask of two
32-bit words, read at signal 32. -/
theorem kernel_sigaddset_frame_witness :
    (kernel_sigset_t.mk [2147483648, 0]).wf cfg32 ∧
      ∃ s1, kernel_sigaddset cfg32 ⟨[2147483648, 0]⟩ 33 = some s1 ∧
        s1.sig.length = (kernel_sigset_t.mk [2147483648, 0]).sig.length ∧
        kernel_sigismember cfg32 s1 32 = kernel_sigismember cfg32 ⟨[2147483648, 0]⟩ 32 ∧
        (∀ i j, ¬(i = ((33 : Int) - 1).toNat / cfg32._NSIG_BPW ∧
            j = ((33 : Int) - 1).toNat % cfg32._NSIG_BPW) →
          s1.bit i j = (kernel_sigset_t.mk [2147483648, 0]).bit i j) ∧
        ¬(((32 : Int) - 1).toNat / cfg32._NSIG_BPW = ((33 : Int) - 1).toNat / cfg32._NSIG_BPW ∧
          ((32 : Int) - 1).toNat % cfg32._NSIG_BPW = ((33 : Int) - 1).toNat % cfg32._NSIG_BPW) :=
  ⟨by decide,
    kernel_sigaddset_frame cfg32 ⟨[2147483648, 0]⟩ 33 32 (by decide) (by decide) (by decide)
      (by decide) (by decide) (by decide) (by decide) (by decide)⟩

/-- C14: for every kernel mask `s` and all valid signal numbers `n` and `m` with
`m ≠ n`, `kernel_sigdelset(s, n)` returns a mask of the same shape in which
`kernel_sigismember` of `m` is as before and every bit other than the bit of
`n` is unchanged. -/
theorem kernel_sigdelset_frame (cfg : Config) (s : kernel_sigset_t) (n m : Int)
    (hs : s.wf cfg) (hn1 : 1 ≤ n) (hn2 : n ≤ (cfg._NSIG_WORDS * cfg._NSIG_BPW : Nat))
    (hn3 : n ≤ INT_MAX) (hm1 : 1 ≤ m) (hm2 : m ≤ (cfg._NSIG_WORDS * cfg._NSIG_BPW : Nat))
    (hm3 : m ≤ INT_MAX) (hne : m ≠ n) :
    ∃ s1, kernel_sigdelset cfg s n = some s1 ∧ s1.sig.length = s.sig.length ∧
      kernel_sigismember cfg s1 m = kernel_sigismember cfg s m ∧
      (∀ i j, ¬(i = (n - 1).toNat / cfg._NSIG_BPW ∧ j = (n - 1).toNat % cfg._NSIG_BPW) →
        s1.bit i j = s.bit i j) := by
  obtain ⟨s1, hs1, hwf1, hbit⟩ := kernel_sigdelset_bits cfg s n hs hn1 hn2 hn3
  have hinj : ¬((m - 1).toNat / cfg._NSIG_BPW = (n - 1).toNat / cfg._NSIG_BPW ∧
      (m - 1).toNat % cfg._NSIG_BPW = (n - 1).toNat % cfg._NSIG_BPW) :=
    fun h => hne (position_injective cfg n m hn1 hm1 h.1 h.2)
  have hother : ∀ i j,
      ¬(i = (n - 1).toNat / cfg._NSIG_BPW ∧ j = (n - 1).toNat % cfg._NSIG_BPW) →
      s1.bit i j = s.bit i j := by
    intro i j hij
    rw [hbit i j, decide_eq_false hij, Bool.not_false, Bool.and_true]
  refine ⟨s1, hs1, by rw [hwf1.1, hs.1], ?_, hother⟩
  have hb := hother _ _ hinj
  unfold kernel_sigset_t.bit at hb
  rw [kernel_sigismember_valid cfg s1 m hwf1.1 hm1 hm2 hm3,
    kernel_sigismember_valid cfg s m hs.1 hm1 hm2 hm3, hb]

/-- Instance of C14 across the word boundary: removing signal 32 from the full
mask of two 32-bit words, read at signal 33. -/
theorem kernel_sigdelset_frame_witness :
    (kernel_sigset_t.mk [4294967295, 4294967295]).wf cfg32 ∧
      ∃ s1, kernel_sigdelset cfg32 ⟨[4294967295, 4294967295]⟩ 32 = some s1 ∧
        s1.sig.length = (kernel_sigset_t.mk [4294967295, 4294967295]).sig.length ∧
        kernel_sigismember cfg32 s1 33 =
          kernel_sigismember cfg32 ⟨[4294967295, 4294967295]⟩ 33 ∧
        (∀ i j, ¬(i = ((32 : Int) - 1).toNat / cfg32._NSIG_BPW ∧
            j = ((32 : Int) - 1).toNat % cfg32._NSIG_BPW) →
          s1.bit i j = (kernel_sigset_t.mk [4294967295, 4294967295]).bit i j) :=
  ⟨by decide,
    kernel_sigdelset_frame cfg32 ⟨[4294967295, 4294967295]⟩ 32 33 (by decide) (by decide)
      (by decide) (by decide) (by decide) (by decide) (by decide) (by decide)⟩

/-- C15: for every valid signal number `n` (`1 ≤ n ≤ _NSIG_WORDS * _NSIG_BPW`) the
0-based position computed by the three mask operations is `n - 1`, its word
index is below `_NSIG_WORDS` and its shift count (`(n - 1) mod _NSIG_BPW`, or
`n - 1` itself when `_NSIG_WORDS == 1`) is below `_NSIG_BPW`, so the three
operations return; and when `MAX_SIGNUM` fits the mask, every signal number of
the two conversion loops is valid and both loops return. -/
theorem kernel_sigset_access_in_range (cfg : Config) (s : kernel_sigset_t) (n : Int)
    (hs : s.wf cfg) (h1 : 1 ≤ n) (h2 : n ≤ (cfg._NSIG_WORDS * cfg._NSIG_BPW : Nat))
    (h3 : n ≤ INT_MAX) :
    (int_sub n 1 = some (n - 1) ∧ uint_of_int (n - 1) = (n - 1).toNat ∧
      Int.tdiv (n - 1) cfg._NSIG_BPW = (((n - 1).toNat / cfg._NSIG_BPW : Nat) : Int) ∧
      Int.tmod (n - 1) cfg._NSIG_BPW = (((n - 1).toNat % cfg._NSIG_BPW : Nat) : Int)) ∧
      ((n - 1).toNat / cfg._NSIG_BPW < cfg._NSIG_WORDS ∧
        (n - 1).toNat % cfg._NSIG_BPW < cfg._NSIG_BPW ∧
        (cfg._NSIG_WORDS = 1 → (n - 1).toNat < cfg._NSIG_BPW)) ∧
      ((kernel_sigaddset cfg s n).isSome = true ∧ (kernel_sigdelset cfg s n).isSome = true ∧
        (kernel_sigismember cfg s n).isSome = true) ∧
      (cfg.loops_in_range →
        (∀ m : Int, 1 ≤ m → m ≤ (cfg.MAX_SIGNUM : Int) →
          m ≤ ((cfg._NSIG_WORDS * cfg._NSIG_BPW : Nat) : Int) ∧ m ≤ INT_MAX) ∧
        ∀ (σ : Type) (ops : sigset_ops σ) (u : σ),
          (copy_kernel_sigset_to_sigset cfg ops s u).isSome = true ∧
            (copy_sigset_to_kernel_sigset cfg ops u s).isSome = true) := by
  obtain ⟨_, hdiv, hmod⟩ := position_in_range cfg n h1 h2
  obtain ⟨htd, htm⟩ := tdiv_tmod_of_valid cfg n h1
  refine ⟨⟨int_sub_one_of_valid n h1 h3, uint_of_int_of_valid n h1 h3, htd, htm⟩,
    ⟨hdiv, hmod, ?_⟩, ⟨?_, ?_, ?_⟩, ?_⟩
  · intro hw
    have := (position_single_word cfg n h1 h2 hw).2
    rw [this] at hmod
    exact hmod
  · rw [kernel_sigaddset_valid cfg s n hs.1 h1 h2 h3]; rfl
  · rw [kernel_sigdelset_valid cfg s n hs.1 h1 h2 h3]; rfl
  · rw [kernel_sigismember_valid cfg s n hs.1 h1 h2 h3]; rfl
  · intro hcfg
    refine ⟨?_, ?_⟩
    · intro m _ hm2
      exact ⟨le_trans hm2 (Int.ofNat_le.mpr hcfg.1), le_of_lt (lt_of_le_of_lt hm2 hcfg.2)⟩
    · intro σ ops u
      obtain ⟨r1, hr1, _⟩ := copy_kernel_sigset_to_sigset_spec cfg ops _
        (ideal_on_empty cfg ops) s hs.1 hcfg u
      obtain ⟨r2, hr2, _⟩ := copy_sigset_to_kernel_sigset_spec cfg ops u hcfg s
      rw [hr1, hr2]
      exact ⟨rfl, rfl⟩

/-- Instance of C15 at the last signal (`n = 64`) of a mask of two 32-bit
words. -/
theorem kernel_sigset_access_in_range_witness :
    (kernel_sigset_t.mk [5, 1]).wf cfg32 ∧ (1 : Int) ≤ 64 ∧
      (64 : Int) ≤ (cfg32._NSIG_WORDS * cfg32._NSIG_BPW : Nat) ∧ (64 : Int) ≤ INT_MAX ∧
      (((64 : Int) - 1).toNat / cfg32._NSIG_BPW < cfg32._NSIG_WORDS ∧
        ((64 : Int) - 1).toNat % cfg32._NSIG_BPW < cfg32._NSIG_BPW ∧
        (cfg32._NSIG_WORDS = 1 → ((64 : Int) - 1).toNat < cfg32._NSIG_BPW)) ∧
      (kernel_sigaddset cfg32 ⟨[5, 1]⟩ 64).isSome = true :=
  ⟨by decide, by decide, by decide, by decide,
    (kernel_sigset_access_in_range cfg32 ⟨[5, 1]⟩ 64 (by decide) (by decide) (by decide)
      (by decide)).2.1,
    (kernel_sigset_access_in_range cfg32 ⟨[5, 1]⟩ 64 (by decide) (by decide) (by decide)
      (by decide)).2.2.1.1⟩

/-- C16: when `_NSIG_WORDS == 1`, for every mask `s` and every valid signal
number `n` (`1 ≤ n ≤ _NSIG_BPW`), the single-word branch of `kernel_sigaddset`,
`kernel_sigdelset` and `kernel_sigismember` (word 0, shift `n - 1`) returns the
same result as the general branch (word `(n - 1) div _NSIG_BPW`, shift
`(n - 1) mod _NSIG_BPW`), which is the result of the operation itself and is
defined. -/
theorem single_word_branch_eq_general (cfg : Config) (s : kernel_sigset_t) (n : Int)
    (hw : cfg._NSIG_WORDS = 1) (hs : s.wf cfg) (h1 : 1 ≤ n)
    (h2 : n ≤ (cfg._NSIG_BPW : Int)) (h3 : n ≤ INT_MAX) :
    (kernel_sigaddset_single cfg s (uint_of_int (n - 1)) =
        kernel_sigaddset_general cfg s (uint_of_int (n - 1)) ∧
      kernel_sigaddset cfg s n = kernel_sigaddset_general cfg s (uint_of_int (n - 1)) ∧
      (kernel_sigaddset cfg s n).isSome = true) ∧
    (kernel_sigdelset_single cfg s (uint_of_int (n - 1)) =
        kernel_sigdelset_general cfg s (uint_of_int (n - 1)) ∧
      kernel_sigdelset cfg s n = kernel_sigdelset_general cfg s (uint_of_int (n - 1)) ∧
      (kernel_sigdelset cfg s n).isSome = true) ∧
    (kernel_sigismember_single cfg s (n - 1) = kernel_sigismember_general cfg s (n - 1) ∧
      kernel_sigismember cfg s n = kernel_sigismember_general cfg s (n - 1) ∧
      (kernel_sigismember cfg s n).isSome = true) := by
  have h2w : n ≤ ((cfg._NSIG_WORDS * cfg._NSIG_BPW : Nat) : Int) := by
    rw [hw, Nat.one_mul]; exact h2
  obtain ⟨hd0, hm0⟩ := position_single_word cfg n h1 h2w hw
  obtain ⟨htd, htm⟩ := tdiv_tmod_of_valid cfg n h1
  have hu := uint_of_int_of_valid n h1 h3
  have hp : ((n - 1).toNat : Int) = n - 1 := Int.toNat_of_nonneg (by omega)
  have hadd : kernel_sigaddset_single cfg s (uint_of_int (n - 1)) =
      kernel_sigaddset_general cfg s (uint_of_int (n - 1)) := by
    unfold kernel_sigaddset_single kernel_sigaddset_general
    rw [hu, hd0, hm0]
  have hdel : kernel_sigdelset_single cfg s (uint_of_int (n - 1)) =
      kernel_sigdelset_general cfg s (uint_of_int (n - 1)) := by
    unfold kernel_sigdelset_single kernel_sigdelset_general
    rw [hu, hd0, hm0]
  have hmem : kernel_sigismember_single cfg s (n - 1) =
      kernel_sigismember_general cfg s (n - 1) := by
    unfold kernel_sigismember_single kernel_sigismember_general
    rw [htd, htm, hd0, hm0, hp]
    rfl
  have hsub := int_sub_one_of_valid n h1 h3
  refine ⟨⟨hadd, ?_, ?_⟩, ⟨hdel, ?_, ?_⟩, ⟨hmem, ?_, ?_⟩⟩
  · rw [kernel_sigaddset_eq_branches, hsub, Option.some_bind, if_pos hw, hadd]
  · rw [kernel_sigaddset_valid cfg s n hs.1 h1 h2w h3]; rfl
  · rw [kernel_sigdelset_eq_branches, hsub, Option.some_bind, if_pos hw, hdel]
  · rw [kernel_sigdelset_valid cfg s n hs.1 h1 h2w h3]; rfl
  · rw [kernel_sigismember_eq_branches, hsub, Option.some_bind, if_pos hw, hmem]
  · rw [kernel_sigismember_valid cfg s n hs.1 h1 h2w h3]; rfl

/-- Instance of C16 at the top signal (`n = 64`) of a mask of one 64-bit word. -/
theorem single_word_branch_eq_general_witness :
    cfg64._NSIG_WORDS = 1 ∧ (kernel_sigset_t.mk [5]).wf cfg64 ∧ (1 : Int) ≤ 64 ∧
      (64 : Int) ≤ (cfg64._NSIG_BPW : Int) ∧ (64 : Int) ≤ INT_MAX ∧
      kernel_sigaddset_single cfg64 ⟨[5]⟩ (uint_of_int (64 - 1)) =
        kernel_sigaddset_general cfg64 ⟨[5]⟩ (uint_of_int (64 - 1)) ∧
      kernel_sigaddset cfg64 ⟨[5]⟩ 64 = some ⟨[9223372036854775813]⟩ :=
  ⟨by decide, by decide, by decide, by decide, by decide,
    (single_word_branch_eq_general cfg64 ⟨[5]⟩ 64 (by decide) (by decide) (by decide)
      (by decide) (by decide)).1.1, by decide⟩

/-- C17: for every kernel mask `s` and all valid signal numbers `n` and `m`,
adding `n` then `m` returns the same mask, word for word, as adding `m` then
`n`, and adding `n` again to a mask that holds `n` returns that mask; hence
two lists of valid signal numbers with the same members give the same mask
whatever their order and repetitions. -/
theorem kernel_sigaddset_order_independent (cfg : Config) (s : kernel_sigset_t) (n m : Int)
    (hs : s.wf cfg) (hn1 : 1 ≤ n) (hn2 : n ≤ (cfg._NSIG_WORDS * cfg._NSIG_BPW : Nat))
    (hn3 : n ≤ INT_MAX) (hm1 : 1 ≤ m) (hm2 : m ≤ (cfg._NSIG_WORDS * cfg._NSIG_BPW : Nat))
    (hm3 : m ≤ INT_MAX) :
    (∃ a b ab, kernel_sigaddset cfg s n = some a ∧ kernel_sigaddset cfg a m = some ab ∧
      kernel_sigaddset cfg s m = some b ∧ kernel_sigaddset cfg b n = some ab ∧
      kernel_sigaddset cfg a n = some a) ∧
    (∀ l1 l2 : List Int,
      (∀ x ∈ l1, 1 ≤ x ∧ x ≤ ((cfg._NSIG_WORDS * cfg._NSIG_BPW : Nat) : Int) ∧ x ≤ INT_MAX) →
      (∀ x, x ∈ l1 ↔ x ∈ l2) →
      ∃ r, kernel_sigaddset_each cfg s l1 = some r ∧ kernel_sigaddset_each cfg s l2 = some r) := by
  constructor
  · obtain ⟨a, ha, hwa, hba⟩ := kernel_sigaddset_bits cfg s n hs hn1 hn2 hn3
    obtain ⟨ab, hab, hwab, hbab⟩ := kernel_sigaddset_bits cfg a m hwa hm1 hm2 hm3
    obtain ⟨b, hb, hwb, hbb⟩ := kernel_sigaddset_bits cfg s m hs hm1 hm2 hm3
    obtain ⟨ba, hba2, hwba, hbba⟩ := kernel_sigaddset_bits cfg b n hwb hn1 hn2 hn3
    obtain ⟨aa, haa, hwaa, hbaa⟩ := kernel_sigaddset_bits cfg a n hwa hn1 hn2 hn3
    have e1 : ba = ab := by
      apply kernel_sigset_t_ext ba ab (by rw [hwba.1, hwab.1])
      intro i j
      rw [hbba i j, hbb i j, hbab i j, hba i j, Bool.or_assoc, Bool.or_assoc]
      congr 1
      exact Bool.or_comm _ _
    have e2 : aa = a := by
      apply kernel_sigset_t_ext aa a (by rw [hwaa.1, hwa.1])
      intro i j
      rw [hbaa i j, hba i j, Bool.or_assoc, Bool.or_self]
    rw [e1] at hba2
    rw [e2] at haa
    exact ⟨a, b, ab, ha, hab, hb, hba2, haa⟩
  · intro l1 l2 hl1 hsame
    have hl2 : ∀ x ∈ l2,
        1 ≤ x ∧ x ≤ ((cfg._NSIG_WORDS * cfg._NSIG_BPW : Nat) : Int) ∧ x ≤ INT_MAX :=
      fun x hx => hl1 x ((hsame x).mpr hx)
    obtain ⟨r1, hr1, hw1, hb1⟩ := kernel_sigaddset_each_bits cfg l1 s hs hl1
    obtain ⟨r2, hr2, hw2, hb2⟩ := kernel_sigaddset_each_bits cfg l2 s hs hl2
    have e : r2 = r1 := by
      apply kernel_sigset_t_ext r2 r1 (by rw [hw2.1, hw1.1])
      intro i j
      rw [hb2 i j, hb1 i j]
      congr 1
      apply decide_eq_decide.mpr
      constructor
      · exact fun h => ⟨h.1, (hsame _).mpr h.2⟩
      · exact fun h => ⟨h.1, (hsame _).mp h.2⟩
    rw [e] at hr2
    exact ⟨r1, hr1, hr2⟩

/-- Instance of C17 across the word boundary: signals 32 and 33 added in both
orders to a mask of two 32-bit words. -/
theorem kernel_sigaddset_order_independent_witness :
    (kernel_sigset_t.mk [4, 0]).wf cfg32 ∧
      kernel_sigaddset_each cfg32 ⟨[4, 0]⟩ [32, 33] = some ⟨[2147483652, 1]⟩ ∧
      kernel_sigaddset_each cfg32 ⟨[4, 0]⟩ [33, 32, 33] = some ⟨[2147483652, 1]⟩ ∧
      ∃ a b ab, kernel_sigaddset cfg32 ⟨[4, 0]⟩ 32 = some a ∧
        kernel_sigaddset cfg32 a 33 = some ab ∧
        kernel_sigaddset cfg32 ⟨[4, 0]⟩ 33 = some b ∧ kernel_sigaddset cfg32 b 32 = some ab ∧
        kernel_sigaddset cfg32 a 32 = some a :=
  ⟨by decide, by decide, by decide,
    (kernel_sigaddset_order_independent cfg32 ⟨[4, 0]⟩ 32 33 (by decide) (by decide)
      (by decide) (by decide) (by decide) (by decide) (by decide)).1⟩

/-- C18: the signal number is not validated. With more than one word (and a
mask whose signal numbers are C ints), the input `n = 0` makes
`kernel_sigaddset` and `kernel_sigdelset` compute the position `2 ^ 32 - 1`,
whose word index is at least `_NSIG_WORDS`, and every `n` above
`_NSIG_WORDS * _NSIG_BPW` has a word index of at least `_NSIG_WORDS`: the word
access is outside the array and neither call has a defined result. -/
theorem kernel_sigset_unvalidated_signal (cfg : Config) (s : kernel_sigset_t)
    (hw : cfg._NSIG_WORDS ≠ 1) (hb : 0 < cfg._NSIG_BPW)
    (hfit : ((cfg._NSIG_WORDS * cfg._NSIG_BPW : Nat) : Int) ≤ INT_MAX)
    (hs : s.sig.length = cfg._NSIG_WORDS) :
    (uint_of_int (0 - 1) = 2 ^ 32 - 1 ∧
      cfg._NSIG_WORDS ≤ uint_of_int (0 - 1) / cfg._NSIG_BPW ∧
      kernel_sigaddset cfg s 0 = none ∧ kernel_sigdelset cfg s 0 = none) ∧
    (∀ n : Int, ((cfg._NSIG_WORDS * cfg._NSIG_BPW : Nat) : Int) < n → n ≤ INT_MAX →
      cfg._NSIG_WORDS ≤ uint_of_int (n - 1) / cfg._NSIG_BPW ∧
      kernel_sigaddset cfg s n = none ∧ kernel_sigdelset cfg s n = none) := by
  have hgen : ∀ n : Int, INT_MIN ≤ n - 1 → n - 1 ≤ INT_MAX →
      cfg._NSIG_WORDS ≤ uint_of_int (n - 1) / cfg._NSIG_BPW →
      kernel_sigaddset cfg s n = none ∧ kernel_sigdelset cfg s n = none := by
    intro n hlo hhi hidx
    have hsub : int_sub n 1 = some (n - 1) := by
      unfold int_sub
      rw [if_pos ⟨hlo, hhi⟩]
    have hnone : s.sig[uint_of_int (n - 1) / cfg._NSIG_BPW]? = none :=
      List.getElem?_eq_none (by rw [hs]; exact hidx)
    have hshl := ulong_shl_one cfg _ (Nat.mod_lt (uint_of_int (n - 1)) hb)
    constructor
    · rw [kernel_sigaddset_eq_branches, hsub, Option.some_bind, if_neg hw]
      unfold kernel_sigaddset_general
      simp only [Option.bind_eq_bind]
      rw [hshl, Option.some_bind, hnone, Option.none_bind]
    · rw [kernel_sigdelset_eq_branches, hsub, Option.some_bind, if_neg hw]
      unfold kernel_sigdelset_general
      simp only [Option.bind_eq_bind]
      rw [hshl, Option.some_bind, hnone, Option.none_bind]
  have hzero : uint_of_int (0 - 1) = 2 ^ 32 - 1 := by decide
  have hfit2 : cfg._NSIG_WORDS * cfg._NSIG_BPW ≤ 2 ^ 32 - 1 := by
    unfold INT_MAX at hfit
    have : ((cfg._NSIG_WORDS * cfg._NSIG_BPW : Nat) : Int) ≤ ((2 ^ 32 - 1 : Nat) : Int) := by
      have e : ((2 ^ 32 - 1 : Nat) : Int) = 4294967295 := by decide
      rw [e]; omega
    exact Int.ofNat_le.mp this
  have hidx0 : cfg._NSIG_WORDS ≤ uint_of_int (0 - 1) / cfg._NSIG_BPW := by
    rw [hzero]
    exact (Nat.le_div_iff_mul_le hb).mpr hfit2
  refine ⟨⟨hzero, hidx0, ?_⟩, ?_⟩
  · exact hgen 0 (by decide) (by decide) hidx0
  · intro n hn1 hn2
    have hpos : 1 ≤ n := by
      have : (0 : Int) ≤ ((cfg._NSIG_WORDS * cfg._NSIG_BPW : Nat) : Int) := Int.ofNat_nonneg _
      omega
    have hidx : cfg._NSIG_WORDS ≤ uint_of_int (n - 1) / cfg._NSIG_BPW := by
      rw [uint_of_int_of_valid n hpos hn2]
      apply (Nat.le_div_iff_mul_le hb).mpr
      have : ((cfg._NSIG_WORDS * cfg._NSIG_BPW : Nat) : Int) ≤ ((n - 1).toNat : Int) := by
        rw [Int.toNat_of_nonneg (by omega)]; omega
      exact Int.ofNat_le.mp this
    refine ⟨hidx, hgen n ?_ ?_ hidx⟩
    · unfold INT_MIN; omega
    · omega

/-- Instance of C18 with two words of 32 bits: the inputs 0 and 65. -/
theorem kernel_sigset_unvalidated_signal_witness :
    cfg32._NSIG_WORDS ≠ 1 ∧ 0 < cfg32._NSIG_BPW ∧
      ((cfg32._NSIG_WORDS * cfg32._NSIG_BPW : Nat) : Int) ≤ INT_MAX ∧
      (kernel_sigset_t.mk [5, 1]).sig.length = cfg32._NSIG_WORDS ∧
      (uint_of_int (0 - 1) = 2 ^ 32 - 1 ∧
        cfg32._NSIG_WORDS ≤ uint_of_int (0 - 1) / cfg32._NSIG_BPW ∧
        kernel_sigaddset cfg32 ⟨[5, 1]⟩ 0 = none ∧ kernel_sigdelset cfg32 ⟨[5, 1]⟩ 0 = none) ∧
      kernel_sigaddset cfg32 ⟨[5, 1]⟩ 65 = none :=
  ⟨by decide, by decide, by decide, by decide,
    (kernel_sigset_unvalidated_signal cfg32 ⟨[5, 1]⟩ (by decide) (by decide) (by decide)
      (by decide)).1, by decide⟩

end SignalPrivate
